import Mathlib

/-!
Verification of the call-graph analysis server (graph builder, graph cache,
graph queries, subgraph export) against its specification.

The Python modules `src/analysis/graph_builder.py`, `graph_cache.py`,
`graph_queries.py` and `graph_viz.py` are shallowly embedded below.  Python
dictionaries become association lists (with overwrite-on-update semantics),
Python sets become duplicate-free lists (add-if-absent), and the file system,
the `jedi` semantic engine and `os.path` normalisation become explicit
function parameters.  Every embedded definition keeps the name and the
control flow of the Python function it models.  The `while` loops of the
worklist algorithms are embedded with an explicit fuel argument; each caller
passes a fuel that exceeds the loop's variant, so the fuel-exhaustion branch
is dead code (proved by the `*_fuel_sufficient`-style lemmas further down).
-/

/-! ### Association-list helpers (Python `dict` / `set` semantics) -/

/-- Lookup in an association list (first binding wins, like a Python dict
whose keys are unique). -/
def alookup {κ α : Type} [DecidableEq κ] : List (κ × α) → κ → Option α
  | [], _ => none
  | (k, v) :: rest, key => if k = key then some v else alookup rest key

/-- Python `d[k] = v`: overwrite the binding in place, or append a new one. -/
def aupsert {κ α : Type} [DecidableEq κ] : List (κ × α) → κ → α → List (κ × α)
  | [], k, v => [(k, v)]
  | (k', v') :: rest, k, v =>
    if k' = k then (k, v) :: rest else (k', v') :: aupsert rest k v

/-- Python `d.pop(k, None)`-style removal (unique keys: filter the binding out). -/
def aremove {κ α : Type} [DecidableEq κ] (l : List (κ × α)) (k : κ) : List (κ × α) :=
  l.filter (fun kv => kv.1 ≠ k)

/-- Python `set.add`: append the element unless it is already present. -/
def saddElem {α : Type} [DecidableEq α] (s : List α) (x : α) : List α :=
  if x ∈ s then s else s ++ [x]

/-! String primitives that the interpreter provides natively are modelled
over the character list so that they evaluate by kernel reduction. -/

/-- Lexicographic comparison of char lists (code-point order, as Python
compares strings). -/
def charListLe : List Char → List Char → Bool
  | [], _ => true
  | _ :: _, [] => false
  | a :: as, b :: bs => if a = b then charListLe as bs else decide (a < b)

/-- `a <= b` on strings. -/
def strLe (a b : String) : Bool := charListLe a.data b.data

/-- Helper of `splitOnChar` (accumulates the current chunk reversed). -/
def splitCharAux (c : Char) : List Char → List Char → List (List Char)
  | [], acc => [acc.reverse]
  | x :: rest, acc =>
    if x = c then acc.reverse :: splitCharAux c rest []
    else splitCharAux c rest (x :: acc)

/-- `s.split(c)` for a one-character separator. -/
def splitOnChar (s : String) (c : Char) : List String :=
  (splitCharAux c s.data []).map String.mk

/-- `s.replace(old, new)` for one-character arguments. -/
def replaceChar (s : String) (old new : Char) : String :=
  String.mk (s.data.map (fun ch => if ch = old then new else ch))

/-- `s.startswith(p)`. -/
def strPrefixOf (p s : String) : Bool := List.isPrefixOf p.data s.data

/-- Python `sorted` on strings, modelled as insertion sort by `≤`. -/
def insertStr (a : String) : List String → List String
  | [] => [a]
  | b :: r => if strLe a b then a :: b :: r else b :: insertStr a r

/-- Python `sorted(iterable)` for strings. -/
def sortStrings : List String → List String
  | [] => []
  | a :: r => insertStr a (sortStrings r)

/-- Lexicographic `≤` on string pairs (Python tuple comparison). -/
def pairLe (a b : String × String) : Bool :=
  if a.1 = b.1 then strLe a.2 b.2 else strLe a.1 b.1

/-- Insertion step of `sortPairs`. -/
def insertPair (a : String × String) : List (String × String) → List (String × String)
  | [] => [a]
  | b :: r => if pairLe a b then a :: b :: r else b :: insertPair a r

/-- Python `sorted` on a set of `(src, tgt)` tuples. -/
def sortPairs : List (String × String) → List (String × String)
  | [] => []
  | a :: r => insertPair a (sortPairs r)

/-! ### The serialized graph value (`serialize_graph` output shape)

`{"nodes": [...], "edges": [...]}` with node dicts carrying a type tag and a
small attribute bag, and edge dicts `{"source", "target", "type"}`. -/

/-- A graph node: `id` and `type` are always present; the remaining attributes
are the optional keyword attributes the builder stores (`path` for files,
`file`/`name` for classes, plus `qualname` and `class_name` for callables). -/
structure Node where
  id : String
  type : String
  path : Option String := none
  file : Option String := none
  name : Option String := none
  qualname : Option String := none
  class_name : Option String := none
deriving DecidableEq

/-- A serialized edge dict `{"source": s, "target": t, "type": ty}`. -/
structure EdgeData where
  source : String
  target : String
  type : String
deriving DecidableEq

/-- The serialized graph value `{"nodes": ..., "edges": ...}`. -/
structure GraphData where
  nodes : List Node
  edges : List EdgeData
deriving DecidableEq

/-! ### `graph_queries.py` -/

/-- Adjacency maps (`Dict[str, List[str]]` built with `setdefault(...).append`). -/
abbrev Adj := List (String × List String)

/-- `adj.get(k, [])`. -/
def adjGet (adj : Adj) (k : String) : List String := (alookup adj k).getD []

/-- `adj.setdefault(s, []).append(t)`: append `t` to the list bound to `s`,
creating the binding at the end if absent. -/
def adjInsert : Adj → String → String → Adj
  | [], s, t => [(s, [t])]
  | (k, vs) :: rest, s, t =>
    if k = s then (k, vs ++ [t]) :: rest else (k, vs) :: adjInsert rest s t

/-- The edge-type guard of `_build_adjacency`:
`if edge_types and edge.get("type") not in edge_types: continue`.
An empty list models the falsy `None`/empty set (no filtering). -/
def edgePass (edgeTypes : List String) (e : EdgeData) : Bool :=
  edgeTypes.isEmpty || edgeTypes.contains e.type

/-- `_build_adjacency(graph_data, edge_types)`. -/
def build_adjacency (g : GraphData) (edgeTypes : List String) : Adj :=
  g.edges.foldl
    (fun adj e => if edgePass edgeTypes e then adjInsert adj e.source e.target else adj) []

/-- `_build_reverse_adjacency(graph_data, edge_types)`. -/
def build_reverse_adjacency (g : GraphData) (edgeTypes : List String) : Adj :=
  g.edges.foldl
    (fun adj e => if edgePass edgeTypes e then adjInsert adj e.target e.source else adj) []

/-- `find_callers(graph, target_id)`: sources of `call` edges into `target_id`.
The Python builds a set then sorts it; the embedding sorts the deduplicated
source list. -/
def find_callers (g : GraphData) (target_id : String) : List String :=
  sortStrings (((g.edges.filter (fun e => e.type = "call" && e.target = target_id)).map
    (fun e => e.source)).dedup)

/-- `find_callees(graph, source_id)`. -/
def find_callees (g : GraphData) (source_id : String) : List String :=
  sortStrings (((g.edges.filter (fun e => e.type = "call" && e.source = source_id)).map
    (fun e => e.target)).dedup)

/-- All strings occurring in an adjacency map (keys and values); used only to
size the fuel of the worklist loops. -/
def adjUniverse (adj : Adj) : List String := adj.flatMap (fun kv => kv.1 :: kv.2)

/-- Number of universe elements not yet visited (loop-variant helper). -/
def countUnvisited (u visited : List String) : Nat :=
  u.countP (fun x => decide (x ∉ visited))

/-- Number of universe elements not yet bound in a parent map (loop-variant
helper for the BFS of `find_path`). -/
def countUnbound (u : List String) (parents : List (String × Option String)) : Nat :=
  u.countP (fun x => (alookup parents x).isNone)

/-- The DFS worklist loop shared by `find_dependencies` and
`find_reverse_dependencies`:

    while stack:
        current = stack.pop()
        if current in visited: continue
        visited.add(current)
        for neigh in adj.get(current, []):
            if neigh not in visited: stack.append(neigh)

Python pops/pushes at the list end; the embedding keeps the stack top at the
head, so the pushes of one iteration are reversed (`n3` ends on top either
way).  `visited` is a Python set used only for membership; the embedding
records insertion order.  `none` is the dead fuel-exhaustion branch. -/
def dfsLoopF (adj : Adj) : Nat → List String → List String → Option (List String)
  | 0, _, _ => none
  | _ + 1, [], visited => some visited
  | fuel + 1, cur :: rest, visited =>
    if cur ∈ visited then dfsLoopF adj fuel rest visited
    else
      dfsLoopF adj fuel
        (((adjGet adj cur).filter (fun n => decide (n ∉ visited))).reverse ++ rest)
        (visited ++ [cur])

/-- Fuel that strictly exceeds the DFS loop's variant
`(|U|+2) * countUnvisited + |stack|` at the initial state. -/
def dfsFuel (adj : Adj) : Nat :=
  ((adjUniverse adj).length + 2) * (adjUniverse adj).length + 2

/-- `find_dependencies(graph_data, node_id)`: DFS over all outgoing edges,
returned minus the seed.  (Python returns `list(visited)` of a set whose
iteration order is unspecified; membership is what the spec constrains.) -/
def find_dependencies (g : GraphData) (node_id : String) : List String :=
  let adj := build_adjacency g []
  ((dfsLoopF adj (dfsFuel adj) [node_id] []).getD []).erase node_id

/-- `find_reverse_dependencies(graph_data, node_id)`: DFS over the reverse
adjacency. -/
def find_reverse_dependencies (g : GraphData) (node_id : String) : List String :=
  let rev := build_reverse_adjacency g []
  ((dfsLoopF rev (dfsFuel rev) [node_id] []).getD []).erase node_id

/-- The neighbour scan of one BFS iteration of `find_path`:

    for neigh in adj.get(current, []):
        if neigh not in parents:
            parents[neigh] = current
            queue.append(neigh)
-/
def bfsScan (cur : String) : List String → List String → List (String × Option String) →
    List String × List (String × Option String)
  | [], queue, parents => (queue, parents)
  | n :: rest, queue, parents =>
    if (alookup parents n).isSome then bfsScan cur rest queue parents
    else bfsScan cur rest (queue ++ [n]) (parents ++ [(n, some cur)])

/-- The BFS loop of `find_path` (`while queue: ... if current == target_id:
break ...`).  Returns the parent map at loop exit; `none` is the dead
fuel-exhaustion branch. -/
def bfsLoopF (adj : Adj) (target : String) :
    Nat → List String → List (String × Option String) → Option (List (String × Option String))
  | 0, _, _ => none
  | _ + 1, [], parents => some parents
  | fuel + 1, cur :: rest, parents =>
    if cur = target then some parents
    else
      let qp := bfsScan cur (adjGet adj cur) rest parents
      bfsLoopF adj target fuel qp.1 qp.2

/-- Fuel that strictly exceeds the BFS loop's variant
`2 * countUnbound + |queue|` at the initial state. -/
def bfsFuel (adj : Adj) : Nat := 2 * (adjUniverse adj).length + 2

/-- The reconstruction loop of `find_path`:

    path = []
    cur = target_id
    while cur is not None:
        path.append(cur)
        cur = parents[cur]

The fuel `|parents|` bounds the parent chain (each binding's parent is bound
strictly earlier). -/
def reconstructFrom (parents : List (String × Option String)) :
    Nat → Option String → List String
  | _, none => []
  | 0, some _ => []
  | fuel + 1, some cur => cur :: reconstructFrom parents fuel ((alookup parents cur).getD none)

/-- `find_path(graph_data, source_id, target_id)`: BFS over all outgoing
edges, with path reconstruction through the parent map; `[]` if unreachable. -/
def find_path (g : GraphData) (source_id target_id : String) : List String :=
  let adj := build_adjacency g []
  match bfsLoopF adj target_id (bfsFuel adj) [source_id] [(source_id, none)] with
  | none => []
  | some parents =>
    if (alookup parents target_id).isNone then []
    else (reconstructFrom parents parents.length (some target_id)).reverse

/-! ### `graph_viz.py` -/

/-- `_label_from_id`: strip a known `kind:` prefix from a node id. -/
def label_from_id (node_id : String) : String :=
  match splitOnChar node_id ':' with
  | [_] => node_id
  | [] => node_id
  | kind :: rest =>
    if kind = "func" ∨ kind = "class" ∨ kind = "file" then
      String.intercalate ":" rest
    else node_id

/-- `_iter_edges(graph, edge_types)` as a list of `(source, target)` pairs. -/
def iterEdges (g : GraphData) (edgeTypes : List String) : List (String × String) :=
  (g.edges.filter (edgePass edgeTypes)).map (fun e => (e.source, e.target))

/-- `_build_adj(graph, edge_types)` of `graph_viz.py`. -/
def vizBuildAdj (g : GraphData) (edgeTypes : List String) : Adj :=
  (iterEdges g edgeTypes).foldl (fun adj st => adjInsert adj st.1 st.2) []

/-- `_build_rev(graph, edge_types)` of `graph_viz.py`. -/
def vizBuildRev (g : GraphData) (edgeTypes : List String) : Adj :=
  (iterEdges g edgeTypes).foldl (fun adj st => adjInsert adj st.2 st.1) []

/-- The focused-BFS loop of `_collect_subgraph`:

    while q:
        cur, d = q.popleft()
        if cur in seen: continue
        seen.add(cur)
        if len(seen) > max_nodes:
            truncated = True
            break
        if d >= depth: continue
        if direction in ("out", "both"):
            for nb in adj.get(cur, []):
                edges_set.add((cur, nb))
                if nb not in seen: q.append((nb, d + 1))
        if direction in ("in", "both"):
            for nb in rev.get(cur, []):
                edges_set.add((nb, cur))
                if nb not in seen: q.append((nb, d + 1))

Result: `(seen, edges_set, truncated)`; `none` is the dead fuel-exhaustion
branch (`seen` insertion order stands in for the Python set). -/
def vizLoopF (adj rev : Adj) (direction : String) (depth maxNodes : Nat) :
    Nat → List (String × Nat) → List String → List (String × String) →
    Option (List String × List (String × String) × Bool)
  | 0, _, _, _ => none
  | _ + 1, [], seen, edgesAcc => some (seen, edgesAcc, false)
  | fuel + 1, (cur, d) :: rest, seen, edgesAcc =>
    if cur ∈ seen then vizLoopF adj rev direction depth maxNodes fuel rest seen edgesAcc
    else
      let seen' := seen ++ [cur]
      if seen'.length > maxNodes then some (seen', edgesAcc, true)
      else if depth ≤ d then vizLoopF adj rev direction depth maxNodes fuel rest seen' edgesAcc
      else
        let outNbrs := if direction = "out" ∨ direction = "both" then adjGet adj cur else []
        let edges1 := outNbrs.foldl (fun es nb => saddElem es (cur, nb)) edgesAcc
        let q1 := rest ++ (outNbrs.filter (fun nb => decide (nb ∉ seen'))).map (fun nb => (nb, d + 1))
        let inNbrs := if direction = "in" ∨ direction = "both" then adjGet rev cur else []
        let edges2 := inNbrs.foldl (fun es nb => saddElem es (nb, cur)) edges1
        let q2 := q1 ++ (inNbrs.filter (fun nb => decide (nb ∉ seen'))).map (fun nb => (nb, d + 1))
        vizLoopF adj rev direction depth maxNodes fuel q2 seen' edges2

/-- Fuel that strictly exceeds the focused-BFS variant
`(|U|+2) * countUnseen + |queue|` at the initial state, where `U` covers both
adjacency maps. -/
def vizFuel (adj rev : Adj) : Nat :=
  ((adjUniverse adj ++ adjUniverse rev).length + 2) *
    (adjUniverse adj ++ adjUniverse rev).length + 2

/-- `_collect_subgraph(graph, focus, direction, depth, edge_types, max_nodes)`.
`focus = none` (or the falsy empty string) renders the whole graph bounded by
`max_nodes`; otherwise a focused BFS.  Returns `(nodes, edges, truncated)`. -/
def collect_subgraph (g : GraphData) (focus : Option String) (direction : String)
    (depth : Nat) (edgeTypes : List String) (maxNodes : Nat) :
    List String × List (String × String) × Bool :=
  if focus.getD "" = "" then
    let allNodes := g.nodes.map (fun n => n.id)
    let truncated := decide (maxNodes < allNodes.length)
    let nodes := allNodes.take maxNodes
    let edges := (iterEdges g edgeTypes).filter (fun st => st.1 ∈ nodes ∧ st.2 ∈ nodes)
    (sortStrings nodes.dedup, edges, truncated)
  else
    let f := focus.getD ""
    let adj := vizBuildAdj g edgeTypes
    let rev := vizBuildRev g edgeTypes
    match vizLoopF adj rev direction depth maxNodes (vizFuel adj rev) [(f, 0)] [] [] with
    | none => ([], [], false)
    | some (seen, edgesSet, truncated) => (sortStrings seen, sortPairs edgesSet, truncated)

/-- The metadata dict returned next to the rendered text by the exporters. -/
structure VizMeta where
  focus : Option String
  edge_types : List String
  direction : String
  depth : Nat
  nodes_rendered : Nat
  edges_rendered : Nat
  truncated : Bool
deriving DecidableEq

/-- `export_mermaid(graph, focus, direction, depth, edge_types, max_nodes)`.
`edgeTypes = []` models the falsy default (`DEFAULT_EDGE_TYPES = {"call"}`).
The node index map `idx` contains every collected node, so the per-edge
`s in idx and t in idx` guard of the source keeps exactly the collected
edges. -/
def export_mermaid (g : GraphData) (focus : Option String) (direction : String)
    (depth : Nat) (edgeTypes : List String) (maxNodes : Nat) : String × VizMeta :=
  let ets := if edgeTypes = [] then ["call"] else edgeTypes
  let (nodes, edges, truncated) := collect_subgraph g focus direction depth ets maxNodes
  let idx := nodes
  let nodeLines := nodes.map (fun nid =>
    s!"  n{idx.indexOf nid}[\"{label_from_id nid}\"]")
  let keptEdges := edges.filter (fun st => st.1 ∈ idx ∧ st.2 ∈ idx)
  let edgeLines := keptEdges.map (fun st =>
    s!"  n{idx.indexOf st.1} --> n{idx.indexOf st.2}")
  let lines := "graph TD" :: (nodeLines ++ edgeLines)
  (String.intercalate "\n" lines,
   { focus := focus, edge_types := sortStrings ets, direction := direction,
     depth := depth, nodes_rendered := nodes.length,
     edges_rendered := keptEdges.length, truncated := truncated })

/-! ### `graph_cache.py`

The file system is abstracted by two function parameters: `abspathFn` models
`os.path.abspath` and `fs` models `_compute_signature` (the sorted
`(relpath, mtime, size)` walk under a root).  `uuid.uuid4()` is modelled by
the fresh counter `next_id`: every id ever stored is `< next_id`, which is
exactly the freshness the uuid provides. -/

/-- `GraphEntry` (a cache entry dataclass). -/
structure GraphEntry where
  graph_id : Nat
  root : String
  granularity : String
  include_external : Bool
  resolve_calls : String
  signature : List (String × Int × Int)
  graph : GraphData
deriving DecidableEq

/-- The cache key tuple `(root, granularity, include_external, resolve_calls)`. -/
abbrev CacheKey := String × String × Bool × String

/-- The key of an entry, as `_evict` recomputes it from the entry's fields. -/
def entryKey (e : GraphEntry) : CacheKey :=
  (e.root, e.granularity, e.include_external, e.resolve_calls)

/-- The mutable state of a `GraphCache`. -/
structure GraphCache where
  max_entries : Nat
  by_id : List (Nat × GraphEntry)
  by_key : List (CacheKey × Nat)
  lru : List Nat
  next_id : Nat

/-- `GraphCache._evict(graph_id)`: drop the id→entry binding and the entry's
key→id binding (the latter even if it meanwhile points at a newer id). -/
def cacheEvict (st : GraphCache) (graph_id : Nat) : GraphCache :=
  match alookup st.by_id graph_id with
  | none => st
  | some entry =>
    { st with
      by_id := aremove st.by_id graph_id,
      by_key := aremove st.by_key (entryKey entry) }

/-- The eviction loop of `_touch_lru`:

    while len(self._lru) > self.max_entries:
        evict = self._lru.pop()
        self._evict(evict)

The fuel passed by `touch_lru` exceeds the number of possible iterations. -/
def touchEvictLoopF : Nat → GraphCache → GraphCache
  | 0, st => st
  | fuel + 1, st =>
    if st.max_entries < st.lru.length then
      match st.lru.getLast? with
      | none => st
      | some ev => touchEvictLoopF fuel (cacheEvict { st with lru := st.lru.dropLast } ev)
    else st

/-- `GraphCache._touch_lru(graph_id)`: move the id to the front, then evict
from the back while over capacity. -/
def touch_lru (st : GraphCache) (graph_id : Nat) : GraphCache :=
  let st' := { st with lru := graph_id :: st.lru.erase graph_id }
  touchEvictLoopF (st'.lru.length + 1) st'

/-- `GraphCache.get(graph_id)`: the looked-up entry (touching the LRU on a
hit) together with the state after the call. -/
def cache_get (st : GraphCache) (graph_id : Nat) : Option GraphEntry × GraphCache :=
  match alookup st.by_id graph_id with
  | some entry => (some entry, touch_lru st graph_id)
  | none => (none, st)

/-- `str.strip()` (whitespace at both ends), modelled over the char list so
that it evaluates by kernel reduction. -/
def pyStrip (s : String) : String :=
  String.mk (((s.data.dropWhile Char.isWhitespace).reverse.dropWhile Char.isWhitespace).reverse)

/-- `str.lower()` (ASCII case folding, which covers the accepted modes). -/
def pyLower (s : String) : String := String.mk (s.data.map Char.toLower)

/-- `(resolve_calls or "jedi").strip().lower()`. -/
def normalize_resolve_calls (rc : String) : String :=
  pyLower (pyStrip (if rc = "" then "jedi" else rc))

/-- `GraphCache.build_or_get(...)`: returns `(entry, cached)` and the state
after the call.  `builder` models the injected build callable. -/
def build_or_get (st : GraphCache) (abspathFn : String → String)
    (fs : String → List (String × Int × Int))
    (builder : String → String → Bool → String → GraphData)
    (root_path granularity : String) (include_external : Bool) (resolve_calls : String)
    (force_rebuild : Bool) : (GraphEntry × Bool) × GraphCache :=
  let root := abspathFn root_path
  let rc := normalize_resolve_calls resolve_calls
  let key : CacheKey := (root, granularity, include_external, rc)
  let build : Unit → (GraphEntry × Bool) × GraphCache := fun _ =>
    let signature := fs root
    let graph := builder root granularity include_external rc
    let gid := st.next_id
    let entry : GraphEntry :=
      { graph_id := gid, root := root, granularity := granularity,
        include_external := include_external, resolve_calls := rc,
        signature := signature, graph := graph }
    let st' := { st with
      by_id := aupsert st.by_id gid entry,
      by_key := aupsert st.by_key key gid,
      next_id := st.next_id + 1 }
    ((entry, false), touch_lru st' gid)
  match (if force_rebuild then none else alookup st.by_key key) with
  | some gid =>
    match alookup st.by_id gid with
    | some entry => ((entry, true), touch_lru st gid)
    | none => build ()
  | none => build ()

/-- `GraphCache.refresh_if_stale(graph_id, builder)`: returns
`(entry?, refreshed)` and the state after the call.  On staleness the entry
is rebuilt with its own stored parameters and only `signature` and `graph`
are replaced in place. -/
def refresh_if_stale (st : GraphCache) (fs : String → List (String × Int × Int))
    (builder : String → String → Bool → String → GraphData) (graph_id : Nat) :
    (Option GraphEntry × Bool) × GraphCache :=
  match alookup st.by_id graph_id with
  | none => ((none, false), st)
  | some entry =>
    let new_sig := fs entry.root
    if new_sig = entry.signature then ((some entry, false), touch_lru st graph_id)
    else
      let graph := builder entry.root entry.granularity entry.include_external entry.resolve_calls
      let entry' := { entry with signature := new_sig, graph := graph }
      let st' := { st with by_id := aupsert st.by_id graph_id entry' }
      ((some entry', true), touch_lru st' graph_id)

/-! ### `graph_builder.py` — the mini Python AST

The builder's two passes only inspect class definitions, function
definitions, assignments, expressions, and import statements; every other
compound statement is traversed transparently by `generic_visit` and is
modelled by `block`.  Expressions are modelled up to the shapes the resolver
matches on (`Name`, `Attribute`, `Call`); everything else is `other`. -/

/-- Python expressions, up to the shapes the builder distinguishes. -/
inductive PyExpr where
  | name (id : String)
  | attr (value : PyExpr) (attrName : String)
  | call (func : PyExpr) (args : List PyExpr)
  | other

/-- Python statements, up to the shapes the builder distinguishes.  `block`
stands for any compound statement whose body `generic_visit` walks without
state change (`if`/`while`/`for`/`try`/...). -/
inductive PyStmt where
  | classDef (name : String) (body : List PyStmt)
  | funcDef (name : String) (body : List PyStmt)
  | assign (targets : List PyExpr) (value : PyExpr)
  | annAssign (target : PyExpr) (value : Option PyExpr)
  | exprStmt (e : PyExpr)
  | importStmt (names : List (String × Option String))
  | importFrom (module : Option String) (names : List (String × Option String))
  | block (body : List PyStmt)

/-- The statement children `ast.iter_child_nodes` yields (statements only). -/
def stmtChildren : PyStmt → List PyStmt
  | .classDef _ b => b
  | .funcDef _ b => b
  | .block b => b
  | _ => []

mutual
/-- Number of statement nodes, used to size the fuel of `walkStmts`. -/
def pyStmtSize : PyStmt → Nat
  | .classDef _ b => 1 + pyStmtsSize b
  | .funcDef _ b => 1 + pyStmtsSize b
  | .block b => 1 + pyStmtsSize b
  | .assign _ _ => 1
  | .annAssign _ _ => 1
  | .exprStmt _ => 1
  | .importStmt _ => 1
  | .importFrom _ _ => 1

/-- Total statement count of a statement list. -/
def pyStmtsSize : List PyStmt → Nat
  | [] => 0
  | s :: r => pyStmtSize s + pyStmtsSize r
end

/-- The breadth-first levels of `ast.walk` (statements only).  Each level is
strictly smaller than the previous in total node count, so the fuel
`pyStmtsSize tree + 1` passed by `walkStmts` always reaches the empty level. -/
def walkLevelsF : Nat → List PyStmt → List PyStmt
  | 0, _ => []
  | fuel + 1, level =>
    if level.isEmpty then []
    else level ++ walkLevelsF fuel (level.flatMap stmtChildren)

/-- `ast.walk(tree)` restricted to statements, in breadth-first order. -/
def walkStmts (tree : List PyStmt) : List PyStmt := walkLevelsF (pyStmtsSize tree + 1) tree

/-- `a.asname or a.name` (an empty asname is falsy). -/
def aliasKey (nm : String) (asn : Option String) : String :=
  match asn with
  | some s => if s = "" then nm else s
  | none => nm

/-- `extract_aliases(tree)`: walk every import-like statement and build the
module-alias and symbol-alias maps. -/
def extract_aliases (tree : List PyStmt) : List (String × String) × List (String × String) :=
  (walkStmts tree).foldl
    (fun ma s =>
      match s with
      | .importStmt names =>
        (names.foldl (fun m p => aupsert m (aliasKey p.1 p.2) p.1) ma.1, ma.2)
      | .importFrom (some module) names =>
        if module = "" then ma
        else (ma.1, names.foldl (fun m p => aupsert m (aliasKey p.1 p.2) s!"{module}.{p.1}") ma.2)
      | _ => ma)
    ([], [])

/-! ### `graph_builder.py` — the `Graph` class and the resolvers -/

/-- The builder's `Graph`: an insertion-ordered node dict (`add_node` keeps
the first node for an id) and an edge set (`add_edge` collapses duplicates). -/
structure Graph where
  nodesList : List Node
  edgesList : List (String × String × String)
deriving DecidableEq

/-- `id in self._nodes`. -/
def Graph.hasNode (g : Graph) (id : String) : Bool := g.nodesList.any (fun n => n.id = id)

/-- `Graph.add_node`: insert unless the id is present. -/
def Graph.add_node (g : Graph) (n : Node) : Graph :=
  if g.hasNode n.id then g else { g with nodesList := g.nodesList ++ [n] }

/-- `Graph.add_edge`: add to the edge set. -/
def Graph.add_edge (g : Graph) (src dst ty : String) : Graph :=
  if (src, dst, ty) ∈ g.edgesList then g
  else { g with edgesList := g.edgesList ++ [(src, dst, ty)] }

/-- The empty graph. -/
def Graph.empty : Graph := ⟨[], []⟩

/-- The id list of a builder graph. -/
def Graph.nodeIds (g : Graph) : List String := g.nodesList.map (fun n => n.id)

/-- `serialize_graph(g)`. -/
def serialize_graph (g : Graph) : GraphData :=
  ⟨g.nodesList, g.edgesList.map (fun e => ⟨e.1, e.2.1, e.2.2⟩)⟩

/-- `full.rsplit(".", 1)` (total model: a dotless string yields module `""`,
which the callers never produce). -/
def rsplitDot (s : String) : String × String :=
  let parts := splitOnChar s '.'
  if parts.length ≤ 1 then ("", s)
  else (String.intercalate "." parts.dropLast, parts.getLastD "")

/-- `module.replace(".", "/") + ".py"`. -/
def modPathOf (module : String) : String := replaceChar module '.' '/' ++ ".py"

/-- `resolve_fallback(func_node, mod_alias, func_alias)`. -/
def resolve_fallback (func_node : PyExpr) (mod_alias func_alias : List (String × String)) :
    List (String × String) :=
  match func_node with
  | .name nm =>
    match alookup func_alias nm with
    | some full =>
      let mr := rsplitDot full
      [(modPathOf mr.1, mr.2)]
    | none => []
  | .attr (.name al) attrN =>
    match alookup mod_alias al with
    | some module => [(modPathOf module, attrN)]
    | none =>
      match alookup func_alias al with
      | some full =>
        let mr := rsplitDot full
        [(modPathOf mr.1, mr.2)]
      | none => []
  | _ => []

/-- One definition inferred by the external semantic engine at a call site
(`d.module_path`, `d.name`, `d.full_name`, `d.module_name`). -/
structure JediDef where
  module_path : Option String
  name : String
  full_name : Option String
  module_name : Option String
deriving DecidableEq

/-- Python truthiness of an optional string (`None` and `""` are falsy). -/
def pyTruthy : Option String → Bool
  | none => false
  | some s => s ≠ ""

/-- The body of the result-assembly loop of `resolve_with_jedi` for one
inferred definition. -/
def jediResultStep (relpathFn : String → String) (include_external : Bool)
    (results : List (String × String)) (d : JediDef) : List (String × String) :=
  if !pyTruthy d.module_path then
    if include_external then results ++ [(s!"<external>:{d.name}", d.name)]
    else results
  else
    let rel := relpathFn (d.module_path.getD "")
    let target_name :=
      match d.full_name, d.module_name with
      | some fn, some mn =>
        if fn ≠ "" ∧ mn ≠ "" ∧ strPrefixOf (mn ++ ".") fn then fn.drop (mn.length + 1)
        else d.name
      | _, _ => d.name
    results ++ [(rel, target_name)]

/-- The result-assembly loop of `resolve_with_jedi`, applied to the
definitions the engine inferred at the call site.  `relpathFn` models
`os.path.relpath(os.path.abspath(str(p)), root).replace("\\", "/")` for the
build's root; the `jedi.Script` construction, the query-position arithmetic
and `script.infer` are the external engine itself, abstracted as the
`defs` input (an engine exception yields `defs = []`). -/
def resolve_with_jedi_defs (relpathFn : String → String) (defs : List JediDef)
    (include_external : Bool) : List (String × String) :=
  defs.foldl (jediResultStep relpathFn include_external) []

/-! ### `graph_builder.py` — `build_function_graph` -/

/-- `class_defs.setdefault(class_name, set()).add(rel)`. -/
def classDefsAdd (cd : List (String × List String)) (nm rel : String) :
    List (String × List String) :=
  match alookup cd nm with
  | none => cd ++ [(nm, [rel])]
  | some hits => if rel ∈ hits then cd else aupsert cd nm (hits ++ [rel])

/-- `resolve_class_to_rel(class_name, current_rel, func_alias)`. -/
def resolve_class_to_rel (class_defs : List (String × List String))
    (class_name current_rel : String) (func_alias : List (String × String)) :
    Option (String × String) :=
  match alookup func_alias class_name with
  | some full =>
    let mr := rsplitDot full
    some (modPathOf mr.1, mr.2)
  | none =>
    let hits := (alookup class_defs class_name).getD []
    match hits with
    | [h] => some (h, class_name)
    | _ => if current_rel ∈ hits then some (current_rel, class_name) else none

/-- Pass-1 state: the graph under construction and the class registry. -/
structure P1State where
  g : Graph
  class_defs : List (String × List String)

mutual
/-- Pass 1 (`NodeCollector.visit_*`) on one statement; `cs` is the class-name
stack with its top at the head. -/
def collectStmt (rel : String) (cs : List String) (st : P1State) : PyStmt → P1State
  | .classDef cname body =>
    let st := { st with class_defs := classDefsAdd st.class_defs cname rel }
    let file_id := s!"file:{rel}"
    let class_id := s!"class:{rel}:{cname}"
    let g := st.g.add_node { id := file_id, type := "file", path := some rel }
    let g := g.add_node { id := class_id, type := "class", file := some rel, name := some cname }
    let g := g.add_edge file_id class_id "contains"
    collectStmts rel (cname :: cs) { st with g := g } body
  | .funcDef fname body =>
    let file_id := s!"file:{rel}"
    let g := st.g.add_node { id := file_id, type := "file", path := some rel }
    match cs.head? with
    | some cls =>
      let qual := s!"{cls}.{fname}"
      let func_id := s!"func:{rel}:{qual}"
      let g := g.add_node
        { id := func_id, type := "method", file := some rel,
          name := some fname, qualname := some qual, class_name := some cls }
      let class_id := s!"class:{rel}:{cls}"
      let g := g.add_node { id := class_id, type := "class", file := some rel, name := some cls }
      let g := g.add_edge class_id func_id "contains"
      let g := g.add_edge file_id func_id "contains"
      collectStmts rel cs { st with g := g } body
    | none =>
      let func_id := s!"func:{rel}:{fname}"
      let g := g.add_node
        { id := func_id, type := "function", file := some rel,
          name := some fname, qualname := some fname }
      let g := g.add_edge file_id func_id "contains"
      collectStmts rel cs { st with g := g } body
  | .block body => collectStmts rel cs st body
  | _ => st

/-- Pass 1 over a statement list. -/
def collectStmts (rel : String) (cs : List String) (st : P1State) : List PyStmt → P1State
  | [] => st
  | s :: rest => collectStmts rel cs (collectStmt rel cs st s) rest
end

/-- The pass-1 state right after the node/edge additions of `visit_ClassDef`,
before the class body is visited (named for the integrity proofs). -/
def p1ClassState (rel : String) (st : P1State) (cname : String) : P1State :=
  let st := { st with class_defs := classDefsAdd st.class_defs cname rel }
  let file_id := s!"file:{rel}"
  let class_id := s!"class:{rel}:{cname}"
  let g := st.g.add_node { id := file_id, type := "file", path := some rel }
  let g := g.add_node { id := class_id, type := "class", file := some rel, name := some cname }
  let g := g.add_edge file_id class_id "contains"
  { st with g := g }

/-- The pass-1 state right after the additions of `visit_FunctionDef` when a
class is current, before the function body is visited. -/
def p1MethodState (rel : String) (st : P1State) (cls fname : String) : P1State :=
  let file_id := s!"file:{rel}"
  let g := st.g.add_node { id := file_id, type := "file", path := some rel }
  let qual := s!"{cls}.{fname}"
  let func_id := s!"func:{rel}:{qual}"
  let g := g.add_node
    { id := func_id, type := "method", file := some rel,
      name := some fname, qualname := some qual, class_name := some cls }
  let class_id := s!"class:{rel}:{cls}"
  let g := g.add_node { id := class_id, type := "class", file := some rel, name := some cls }
  let g := g.add_edge class_id func_id "contains"
  let g := g.add_edge file_id func_id "contains"
  { st with g := g }

/-- The pass-1 state right after the additions of `visit_FunctionDef` at
module level, before the function body is visited. -/
def p1FuncState (rel : String) (st : P1State) (fname : String) : P1State :=
  let file_id := s!"file:{rel}"
  let g := st.g.add_node { id := file_id, type := "file", path := some rel }
  let func_id := s!"func:{rel}:{fname}"
  let g := g.add_node
    { id := func_id, type := "function", file := some rel,
      name := some fname, qualname := some fname }
  let g := g.add_edge file_id func_id "contains"
  { st with g := g }

/-- The per-file environment of pass 2 (`Current` visitor closure). -/
structure P2Env where
  rel : String
  path : String
  mod_alias : List (String × String)
  func_alias : List (String × String)
  class_defs : List (String × List String)
  use_jedi : Bool
  include_external : Bool
  relpathFn : String → String
  jediInfer : String → PyExpr → List JediDef

/-- The local-type table `var -> (class_rel, class_name)`. -/
abbrev LocalTypes := List (String × (String × String))

/-- The constructor's class name (`Name.id` or the trailing `Attribute.attr`). -/
def ctorClassName : PyExpr → Option String
  | .name i => some i
  | .attr _ a => some a
  | _ => none

/-- `Current._capture_ctor_assignment(target, value)`. -/
def capture_ctor_assignment (env : P2Env) (lt : LocalTypes) (target value : PyExpr) :
    LocalTypes :=
  match target with
  | .name tid =>
    match value with
    | .call ctor _ =>
      match ctorClassName ctor with
      | some cls_name =>
        match resolve_class_to_rel env.class_defs cls_name env.rel env.func_alias with
        | some resolved => aupsert lt tid resolved
        | none => lt
      | none => lt
    | _ => lt
  | _ => lt

/-- Strategy C, the "smart fallback for obj.method()" block of `visit_Call`.
The source guards it with `isinstance(node.func, ast.Attribute)`; for every
other shape this returns `[]`, which is the same thing. -/
def receiverTypeTargets (env : P2Env) (lt : LocalTypes) (func_node : PyExpr) :
    List (String × String) :=
  match func_node with
  | .attr recv method_name =>
    match recv with
    | .name rid =>
      match alookup lt rid with
      | some rc => [(rc.1, s!"{rc.2}.{method_name}")]
      | none => []
    | .call ctor _ =>
      match ctorClassName ctor with
      | some cls_name =>
        match resolve_class_to_rel env.class_defs cls_name env.rel env.func_alias with
        | some rc => [(rc.1, s!"{rc.2}.{method_name}")]
        | none => []
      | none => []
    | _ => []
  | _ => []

/-- The candidate filter of the last-resort strategy: every method node of
the whole graph whose simple name equals the attribute. -/
def lastResortCands (g : Graph) (method_name : String) : List Node :=
  g.nodesList.filter (fun n => n.type = "method" && n.name = some method_name)

/-- Strategy D, the last-resort block of `visit_Call` ("ONLY if unique"). -/
def lastResortTargets (g : Graph) (func_node : PyExpr) : List (String × String) :=
  match func_node with
  | .attr _ method_name =>
    match lastResortCands g method_name with
    | [n] => [(n.file.getD "", n.qualname.getD "")]
    | _ => []
  | _ => []

/-- The target-resolution chain of `visit_Call`: fallback, then jedi (only in
`"jedi"` mode), then receiver-type inference, then the last resort — each
stage only when every earlier stage produced no targets. -/
def callTargets (env : P2Env) (g : Graph) (lt : LocalTypes) (func_node : PyExpr) :
    List (String × String) :=
  let targets := resolve_fallback func_node env.mod_alias env.func_alias
  let targets :=
    if targets = [] ∧ env.use_jedi then
      resolve_with_jedi_defs env.relpathFn (env.jediInfer env.path func_node)
        env.include_external
    else targets
  let targets := if targets = [] then receiverTypeTargets env lt func_node else targets
  let targets := if targets = [] then lastResortTargets g func_node else targets
  targets

/-- The edge-materialization loop of `visit_Call`: form the callee id and add
a `call` edge only when that id exists in the node set. -/
def materialize_call (g : Graph) (caller_id : String) (targets : List (String × String)) :
    Graph :=
  targets.foldl
    (fun g tr =>
      let callee_id := s!"func:{tr.1}:{tr.2}"
      if g.hasNode callee_id then g.add_edge caller_id callee_id "call" else g)
    g

/-- One `visit_Call` resolution step (without the `generic_visit` recursion):
nothing happens outside a function body. -/
def visitCallStep (env : P2Env) (cf : Option String) (lt : LocalTypes) (g : Graph)
    (func_node : PyExpr) : Graph :=
  match cf with
  | none => g
  | some current_func =>
    materialize_call g s!"func:{env.rel}:{current_func}" (callTargets env g lt func_node)

/-- `Class.name` when a class is current, else the bare name (the `qualname`
both passes compute for a function definition). -/
def qualOf (c : Option String) (nm : String) : String :=
  match c with
  | some cls => s!"{cls}.{nm}"
  | none => nm

mutual
/-- Pass 2 (`Current.visit_*`) over an expression.  Within an expression the
visitor state (`current_class`, `current_func`, `local_types`) never changes,
so only the graph is threaded.  `visit_Call` returns before `generic_visit`
when no function is current, so nested calls are skipped there too. -/
def p2Expr (env : P2Env) (cf : Option String) (lt : LocalTypes) (g : Graph) :
    PyExpr → Graph
  | .name _ => g
  | .other => g
  | .attr v _ => p2Expr env cf lt g v
  | .call fn args =>
    match cf with
    | none => g
    | some _ =>
      let g := visitCallStep env cf lt g fn
      let g := p2Expr env cf lt g fn
      p2ExprList env cf lt g args

/-- Pass 2 over an expression list. -/
def p2ExprList (env : P2Env) (cf : Option String) (lt : LocalTypes) (g : Graph) :
    List PyExpr → Graph
  | [] => g
  | e :: rest => p2ExprList env cf lt (p2Expr env cf lt g e) rest
end

mutual
/-- Pass 2 over one statement; `cc`/`cf` are `current_class`/`current_func`.
Returns the local-type table and the graph after the statement
(`visit_ClassDef` restores `current_class`, `visit_FunctionDef` restores
`current_func` and the outer local-type table). -/
def p2Stmt (env : P2Env) (cc cf : Option String) (lt : LocalTypes) (g : Graph) :
    PyStmt → LocalTypes × Graph
  | .classDef cname body => p2Stmts env (some cname) cf lt g body
  | .funcDef fname body =>
    let qual := qualOf cc fname
    let r := p2Stmts env cc (some qual) [] g body
    (lt, r.2)
  | .assign tgts value =>
    let lt := tgts.foldl (fun lt t => capture_ctor_assignment env lt t value) lt
    let g := p2ExprList env cf lt g tgts
    let g := p2Expr env cf lt g value
    (lt, g)
  | .annAssign tgt value? =>
    let lt :=
      match value? with
      | some v => capture_ctor_assignment env lt tgt v
      | none => lt
    let g := p2Expr env cf lt g tgt
    let g :=
      match value? with
      | some v => p2Expr env cf lt g v
      | none => g
    (lt, g)
  | .exprStmt e => (lt, p2Expr env cf lt g e)
  | .block body => p2Stmts env cc cf lt g body
  | .importStmt _ => (lt, g)
  | .importFrom _ _ => (lt, g)

/-- Pass 2 over a statement list, threading the local-type table. -/
def p2Stmts (env : P2Env) (cc cf : Option String) (lt : LocalTypes) (g : Graph) :
    List PyStmt → LocalTypes × Graph
  | [] => (lt, g)
  | s :: rest =>
    let r := p2Stmt env cc cf lt g s
    p2Stmts env cc cf r.1 r.2 rest
end

/-- One entry of the file index `parse_files` produces: absolute path,
root-relative path (forward slashes) and the parsed tree. -/
structure FileInfo where
  path : String
  rel : String
  tree : List PyStmt

/-- Pass 1 of `build_function_graph` over the whole file list. -/
def p1Collect (files : List FileInfo) : P1State :=
  files.foldl (fun st fi => collectStmts fi.rel [] st fi.tree)
    { g := Graph.empty, class_defs := [] }

/-- The per-file pass-2 environment `build_function_graph` constructs (its
alias maps come from `extract_aliases` on the file's tree). -/
def p2EnvOf (cd : List (String × List String)) (relpathFn : String → String)
    (jediInfer : String → PyExpr → List JediDef) (uj ie : Bool) (fi : FileInfo) : P2Env :=
  { rel := fi.rel, path := fi.path, mod_alias := (extract_aliases fi.tree).1,
    func_alias := (extract_aliases fi.tree).2, class_defs := cd, use_jedi := uj,
    include_external := ie, relpathFn := relpathFn, jediInfer := jediInfer }

/-- Pass 2 of `build_function_graph` over one file. -/
def p2File (cd : List (String × List String)) (relpathFn : String → String)
    (jediInfer : String → PyExpr → List JediDef) (uj ie : Bool)
    (g : Graph) (fi : FileInfo) : Graph :=
  (p2Stmts (p2EnvOf cd relpathFn jediInfer uj ie fi) none none [] g fi.tree).2

/-- `build_function_graph(root, include_external, resolve_calls)`, taking the
`parse_files` output and the external engine as inputs. -/
def build_function_graph (files : List FileInfo) (relpathFn : String → String)
    (jediInfer : String → PyExpr → List JediDef)
    (include_external : Bool) (resolve_calls : String) : Graph :=
  let use_jedi := decide (resolve_calls = "jedi")
  let p1 := p1Collect files
  files.foldl (p2File p1.class_defs relpathFn jediInfer use_jedi include_external) p1.g

/-- One step of `build_file_graph`'s first loop: index the module name and
add the file node. -/
def fileIndexStep (mg : List (String × String) × Graph) (fi : FileInfo) :
    List (String × String) × Graph :=
  (aupsert mg.1 (replaceChar (fi.rel.dropRight 3) '/' '.') fi.rel,
   Graph.add_node mg.2 { id := s!"file:{fi.rel}", type := "file", path := some fi.rel })

/-- One `import`-edge addition of `build_file_graph` for a single imported
name (edge only when the module is in the project index). -/
def importEdgeName (module_to_file : List (String × String)) (file_id : String)
    (g : Graph) (p : String × Option String) : Graph :=
  match alookup module_to_file p.1 with
  | some target_rel => g.add_edge file_id s!"file:{target_rel}" "import"
  | none => g

/-- The `import`-edge additions of `build_file_graph` for one walked
statement. -/
def importEdgesStmt (module_to_file : List (String × String)) (file_id : String)
    (g : Graph) : PyStmt → Graph
  | .importStmt names => names.foldl (importEdgeName module_to_file file_id) g
  | .importFrom (some module) _ =>
    if module = "" then g
    else
      match alookup module_to_file module with
      | some target_rel => g.add_edge file_id s!"file:{target_rel}" "import"
      | none => g
  | _ => g

/-- The `import`-edge additions of `build_file_graph` for one file. -/
def importEdgesFile (module_to_file : List (String × String)) (g : Graph)
    (fi : FileInfo) : Graph :=
  (walkStmts fi.tree).foldl (importEdgesStmt module_to_file s!"file:{fi.rel}") g

/-- `build_file_graph(root, include_external)`: file nodes plus `import`
edges to in-project modules. -/
def build_file_graph (files : List FileInfo) : Graph :=
  let mg := files.foldl fileIndexStep (([] : List (String × String)), Graph.empty)
  files.foldl (importEdgesFile mg.1) mg.2

/-- `build_project_graph(...)`: select the pipeline and serialize. -/
def build_project_graph (files : List FileInfo) (relpathFn : String → String)
    (jediInfer : String → PyExpr → List JediDef) (granularity : String)
    (include_external : Bool) (resolve_calls : String) : GraphData :=
  if granularity = "file" then serialize_graph (build_file_graph files)
  else serialize_graph (build_function_graph files relpathFn jediInfer include_external resolve_calls)

/-- The id list of a serialized graph. -/
def GraphData.nodeIds (g : GraphData) : List String := g.nodes.map (fun n => n.id)

mutual
/-- Specification helper for the two-pass alignment proof: the `func:` node
ids pass 1 creates for the function definitions inside one statement, when
the innermost enclosing class is `c`. -/
def funcNodeIdsStmt (rel : String) (c : Option String) : PyStmt → List String
  | .classDef cname body => funcNodeIdsStmts rel (some cname) body
  | .funcDef fname body => s!"func:{rel}:{qualOf c fname}" :: funcNodeIdsStmts rel c body
  | .block body => funcNodeIdsStmts rel c body
  | _ => []

/-- `funcNodeIdsStmt` over a statement list. -/
def funcNodeIdsStmts (rel : String) (c : Option String) : List PyStmt → List String
  | [] => []
  | s :: rest => funcNodeIdsStmt rel c s ++ funcNodeIdsStmts rel c rest
end


/-! ### Specification predicates (proof support, not part of the embedding) -/

/-- One step along an adjacency map. -/
def adjStep (adj : Adj) (a b : String) : Prop := b ∈ adjGet adj a

/-- One directed edge of the serialized graph (any type). -/
def edgeStep (g : GraphData) (a b : String) : Prop :=
  ∃ e ∈ g.edges, e.source = a ∧ e.target = b

/-- Edge referential integrity of a builder graph: both endpoints of every
edge occur in the node set. -/
def EdgesOK (g : Graph) : Prop :=
  ∀ e ∈ g.edgesList, e.1 ∈ g.nodeIds ∧ e.2.1 ∈ g.nodeIds

/-- The current-function invariant of pass 2: whenever a function is current,
its `func:` node is already in the graph (so the caller end of every `call`
edge is a node). -/
def CallerOK (rel : String) (cf : Option String) (g : Graph) : Prop :=
  ∀ q, cf = some q → s!"func:{rel}:{q}" ∈ g.nodeIds

/-- The key list of a parent map. -/
def pmKeys (p : List (String × Option String)) : List String := p.map Prod.fst

/-- The shape of every parent map the BFS of `find_path` builds: it starts as
`{source: None}` and grows only by binding a fresh node to an already-bound
parent adjacent to it.  Every property of `find_path`'s reconstruction
follows from this shape. -/
inductive WFParents (adj : Adj) (src : String) : List (String × Option String) → Prop where
  | base : WFParents adj src [(src, none)]
  | extend (p : List (String × Option String)) (n pn : String) :
      WFParents adj src p → pn ∈ pmKeys p → n ∉ pmKeys p → n ∈ adjGet adj pn →
      WFParents adj src (p ++ [(n, some pn)])

/-! ### Concrete fixtures used by the witness and counterexample theorems -/

/-- A three-node call chain `a → b → c`. -/
def chainGraph : GraphData :=
  { nodes := [{ id := "a", type := "function" }, { id := "b", type := "function" },
              { id := "c", type := "function" }],
    edges := [⟨"a", "b", "call"⟩, ⟨"b", "c", "call"⟩] }

/-- A file whose only function makes one unresolvable attribute call. -/
def extTree : List PyStmt :=
  [.funcDef "f" [.exprStmt (.call (.attr (.name "x") "ext") [])]]

/-- A one-file project for the external-definition scenario. -/
def extFiles : List FileInfo := [{ path := "/p/a.py", rel := "a.py", tree := extTree }]

/-- A semantic engine that infers one definition without a module path
(a builtin / compiled definition, i.e. outside the project root). -/
def extInfer : String → PyExpr → List JediDef := fun _ _ =>
  [{ module_path := none, name := "extfun", full_name := none, module_name := none }]

/-- Two classes in different files that both define a method `run`, plus a
caller whose receiver type is unknown (spec scenario 5). -/
def twoRunFiles : List FileInfo :=
  [{ path := "/p/x.py", rel := "x.py", tree := [.classDef "A" [.funcDef "run" [.exprStmt .other]]] },
   { path := "/p/y.py", rel := "y.py", tree := [.classDef "B" [.funcDef "run" [.exprStmt .other]]] },
   { path := "/p/z.py", rel := "z.py",
     tree := [.funcDef "go" [.exprStmt (.call (.attr (.name "obj") "run") [])]] }]

/-- A pass-2 environment over an empty file, with no aliases and an engine
that infers nothing; used to exercise the resolution chain directly. -/
def plainEnv : P2Env :=
  { rel := "z.py", path := "/p/z.py", mod_alias := [], func_alias := [],
    class_defs := [], use_jedi := false, include_external := false,
    relpathFn := id, jediInfer := fun _ _ => [] }

/-- A one-entry cache fixture: entry `0` cached for root `/p`. -/
def entry0 : GraphEntry :=
  { graph_id := 0, root := "/p", granularity := "function", include_external := false,
    resolve_calls := "jedi", signature := [("a.py", 1, 10)],
    graph := { nodes := [{ id := "file:a.py", type := "file" }], edges := [] } }

/-- A cache holding exactly `entry0`. -/
def cache0 : GraphCache :=
  { max_entries := 4, by_id := [(0, entry0)],
    by_key := [(("/p", "function", false, "jedi"), 0)], lru := [0], next_id := 1 }

/-- A file system whose signature for `/p` matches `entry0` (fresh). -/
def fsFresh : String → List (String × Int × Int) := fun _ => [("a.py", 1, 10)]

/-- A file system whose signature for `/p` differs from `entry0` (stale). -/
def fsStale : String → List (String × Int × Int) := fun _ => [("a.py", 2, 11)]

/-- A builder stub producing a recognisable graph. -/
def builderStub : String → String → Bool → String → GraphData := fun _ _ _ _ =>
  { nodes := [{ id := "file:b.py", type := "file" }], edges := [] }

/-! ## Theorems

General facts about the association-list helpers first, then the claims. -/

theorem alookup_aupsert_self {κ α : Type} [DecidableEq κ] (l : List (κ × α)) (k : κ) (v : α) :
    alookup (aupsert l k v) k = some v := by
  induction l with
  | nil => simp [aupsert, alookup]
  | cons kv rest ih =>
    obtain ⟨k', v'⟩ := kv
    by_cases h : k' = k
    · subst h; simp [aupsert, alookup]
    · simp [aupsert, alookup, h, ih]

theorem alookup_aupsert_ne {κ α : Type} [DecidableEq κ] (l : List (κ × α)) (k k' : κ) (v : α)
    (h : k' ≠ k) : alookup (aupsert l k v) k' = alookup l k' := by
  induction l with
  | nil => simp [aupsert, alookup, Ne.symm h]
  | cons kv rest ih =>
    obtain ⟨k1, v1⟩ := kv
    by_cases h1 : k1 = k
    · subst h1
      simp [aupsert, alookup, Ne.symm h]
    · simp only [aupsert, if_neg h1, alookup]
      by_cases h2 : k1 = k'
      · simp [h2]
      · simp [h2, ih]

theorem alookup_mem {κ α : Type} [DecidableEq κ] {l : List (κ × α)} {k : κ} {v : α}
    (h : alookup l k = some v) : (k, v) ∈ l := by
  induction l with
  | nil => simp [alookup] at h
  | cons kv rest ih =>
    obtain ⟨k1, v1⟩ := kv
    by_cases h1 : k1 = k
    · subst h1
      simp [alookup] at h
      simp [h]
    · simp only [alookup, if_neg h1] at h
      exact List.mem_cons_of_mem _ (ih h)

theorem touchEvictLoopF_id (fuel : Nat) (st : GraphCache) (h : st.lru.length ≤ st.max_entries) :
    touchEvictLoopF fuel st = st := by
  cases fuel with
  | zero => rfl
  | succ n =>
    unfold touchEvictLoopF
    rw [if_neg (by omega)]

theorem touch_lru_no_evict (st : GraphCache) (gid : Nat) (h1 : gid ∈ st.lru)
    (h2 : st.lru.length ≤ st.max_entries) :
    touch_lru st gid = { st with lru := gid :: st.lru.erase gid } := by
  unfold touch_lru
  apply touchEvictLoopF_id
  have h3 : (st.lru.erase gid).length = st.lru.length - 1 := List.length_erase_of_mem h1
  have h4 : 0 < st.lru.length := List.length_pos.mpr (List.ne_nil_of_mem h1)
  simp [h3]
  omega

theorem touch_lru_fresh_no_evict (st : GraphCache) (gid : Nat) (h1 : gid ∉ st.lru)
    (h2 : st.lru.length < st.max_entries) :
    touch_lru st gid = { st with lru := gid :: st.lru } := by
  unfold touch_lru
  rw [List.erase_of_not_mem h1]
  apply touchEvictLoopF_id
  simp
  omega

/-- Claim C10: for every graph value and every node id `x`, `path(x, x)`
returns the single-element sequence `[x]`, even when `x` occurs nowhere in
the graph's nodes or edges. -/
theorem C10_find_path_self (g : GraphData) (x : String) : find_path g x x = [x] := by
  have key : ∀ (adj : Adj) (y : String), bfsLoopF adj y (bfsFuel adj) [y] [(y, none)] = some [(y, none)] := by
    intro adj y
    obtain ⟨f, hfe⟩ : ∃ f, bfsFuel adj = f + 1 := ⟨2 * (adjUniverse adj).length + 1, rfl⟩
    rw [hfe]
    simp [bfsLoopF]
  unfold find_path
  simp [key, alookup, reconstructFrom]

/-- Claim C5: for every cached entry, `refresh_if_stale` recomputes the
root's signature; when it matches the stored one it returns
`(entry, refreshed=false)` with the entry unchanged in the cache, and when it
differs it rebuilds with the entry's stored root/granularity/
include_external/resolve_calls and replaces exactly `signature` and `graph`
on that entry (id, root and the three build parameters unchanged), returning
`refreshed=true`.  The two LRU hypotheses are the cache's own invariants
(every cached id is in the LRU list, which never exceeds capacity). -/
theorem C5_refresh_if_stale (st : GraphCache) (fs : String → List (String × Int × Int))
    (builder : String → String → Bool → String → GraphData) (gid : Nat) (entry : GraphEntry)
    (hid : alookup st.by_id gid = some entry)
    (hmem : gid ∈ st.lru) (hcap : st.lru.length ≤ st.max_entries) :
    (fs entry.root = entry.signature →
      refresh_if_stale st fs builder gid =
        ((some entry, false), { st with lru := gid :: st.lru.erase gid })) ∧
    (fs entry.root ≠ entry.signature →
      ∃ entry',
        refresh_if_stale st fs builder gid =
          ((some entry', true),
           { st with by_id := aupsert st.by_id gid entry',
                     lru := gid :: st.lru.erase gid }) ∧
        entry'.graph_id = entry.graph_id ∧
        entry'.root = entry.root ∧
        entry'.granularity = entry.granularity ∧
        entry'.include_external = entry.include_external ∧
        entry'.resolve_calls = entry.resolve_calls ∧
        entry'.signature = fs entry.root ∧
        entry'.graph =
          builder entry.root entry.granularity entry.include_external entry.resolve_calls ∧
        alookup (aupsert st.by_id gid entry') gid = some entry') := by
  constructor
  · intro hsig
    unfold refresh_if_stale
    rw [hid]
    simp only [hsig, if_pos rfl, if_true]
    rw [touch_lru_no_evict st gid hmem hcap]
  · intro hsig
    refine ⟨{ entry with signature := fs entry.root, graph := builder entry.root entry.granularity entry.include_external entry.resolve_calls }, ?_, rfl, rfl, rfl, rfl, rfl, rfl, rfl, alookup_aupsert_self _ _ _⟩
    unfold refresh_if_stale
    rw [hid]
    simp only [if_neg hsig]
    rw [touch_lru_no_evict]
    · exact hmem
    · exact hcap

/-- Witness for claim C5: both branches exercised on the one-entry cache
fixture (`fsFresh` matches `entry0`'s signature, `fsStale` does not). -/
theorem C5_refresh_if_stale_witness :
    refresh_if_stale cache0 fsFresh builderStub 0 =
      ((some entry0, false), { cache0 with lru := [0] }) ∧
    ∃ entry',
      refresh_if_stale cache0 fsStale builderStub 0 =
        ((some entry', true),
         { cache0 with by_id := aupsert cache0.by_id 0 entry', lru := [0] }) ∧
      entry'.signature = fsStale entry0.root ∧
      entry'.graph = builderStub entry0.root entry0.granularity entry0.include_external
        entry0.resolve_calls := by
  constructor
  · have h := (C5_refresh_if_stale cache0 fsFresh builderStub 0 entry0 rfl
      (by simp [cache0]) (by simp [cache0])).1 rfl
    simpa [cache0] using h
  · obtain ⟨e', he, h1, h2, h3, h4, h5, hsig, hgraph, h6⟩ :=
      (C5_refresh_if_stale cache0 fsStale builderStub 0 entry0 rfl
        (by simp [cache0]) (by simp [cache0])).2 (by decide)
    exact ⟨e', by simpa [cache0] using he, hsig, hgraph⟩

/-- Claim C9: `build_or_get` with `force_rebuild=true` on a key that already
has a cached entry mints a fresh `graph_id`, maps the key to it, and leaves
the previous entry in place: it stays retrievable through `get` by its old
id, so the cache simultaneously holds two entries whose root, granularity,
include_external and resolve_calls fields are equal.  The hypotheses are the
cache's own invariants (ids are minted by the fresh counter, the LRU list
mirrors the id map and is under capacity — under capacity so that this call
itself does not evict the old entry) plus the consistency of the old entry's
fields with its key. -/
theorem C9_force_rebuild_keeps_old (st : GraphCache) (abspathFn : String → String)
    (fs : String → List (String × Int × Int))
    (builder : String → String → Bool → String → GraphData)
    (root_path granularity : String) (include_external : Bool) (resolve_calls : String)
    (gid0 : Nat) (e0 : GraphEntry)
    (_hkey : alookup st.by_key
      (abspathFn root_path, granularity, include_external,
        normalize_resolve_calls resolve_calls) = some gid0)
    (hid : alookup st.by_id gid0 = some e0)
    (hfresh : ∀ p ∈ st.by_id, p.1 < st.next_id)
    (hlru : ∀ i ∈ st.lru, i < st.next_id)
    (hcap : st.lru.length < st.max_entries)
    (hroot : e0.root = abspathFn root_path) (hgran : e0.granularity = granularity)
    (hext : e0.include_external = include_external)
    (hrc : e0.resolve_calls = normalize_resolve_calls resolve_calls) :
    ∃ e1 : GraphEntry,
      build_or_get st abspathFn fs builder root_path granularity include_external
          resolve_calls true =
        ((e1, false),
         { st with
             by_id := aupsert st.by_id st.next_id e1,
             by_key := aupsert st.by_key
               (abspathFn root_path, granularity, include_external,
                 normalize_resolve_calls resolve_calls) st.next_id,
             lru := st.next_id :: st.lru,
             next_id := st.next_id + 1 }) ∧
      e1.graph_id = st.next_id ∧
      gid0 ≠ st.next_id ∧
      (let st1 := (build_or_get st abspathFn fs builder root_path granularity
        include_external resolve_calls true).2
       alookup st1.by_key
           (abspathFn root_path, granularity, include_external,
             normalize_resolve_calls resolve_calls) = some st.next_id ∧
         alookup st1.by_id gid0 = some e0 ∧
         alookup st1.by_id st.next_id = some e1 ∧
         (cache_get st1 gid0).1 = some e0) ∧
      e1.root = e0.root ∧ e1.granularity = e0.granularity ∧
      e1.include_external = e0.include_external ∧ e1.resolve_calls = e0.resolve_calls := by
  have hgid0 : gid0 < st.next_id := hfresh _ (alookup_mem hid)
  have hne : gid0 ≠ st.next_id := Nat.ne_of_lt hgid0
  have hnotlru : st.next_id ∉ st.lru := fun hmem => by
    have := hlru _ hmem
    omega
  have hres : build_or_get st abspathFn fs builder root_path granularity include_external
      resolve_calls true =
      (((⟨st.next_id, abspathFn root_path, granularity, include_external,
          normalize_resolve_calls resolve_calls, fs (abspathFn root_path),
          builder (abspathFn root_path) granularity include_external
            (normalize_resolve_calls resolve_calls)⟩ : GraphEntry), false),
       { st with
           by_id := aupsert st.by_id st.next_id
             ⟨st.next_id, abspathFn root_path, granularity, include_external,
               normalize_resolve_calls resolve_calls, fs (abspathFn root_path),
               builder (abspathFn root_path) granularity include_external
                 (normalize_resolve_calls resolve_calls)⟩,
           by_key := aupsert st.by_key
             (abspathFn root_path, granularity, include_external,
               normalize_resolve_calls resolve_calls) st.next_id,
           lru := st.next_id :: st.lru,
           next_id := st.next_id + 1 }) := by
    have step : build_or_get st abspathFn fs builder root_path granularity include_external
        resolve_calls true =
        (((⟨st.next_id, abspathFn root_path, granularity, include_external,
            normalize_resolve_calls resolve_calls, fs (abspathFn root_path),
            builder (abspathFn root_path) granularity include_external
              (normalize_resolve_calls resolve_calls)⟩ : GraphEntry), false),
         touch_lru
           { st with
               by_id := aupsert st.by_id st.next_id
                 ⟨st.next_id, abspathFn root_path, granularity, include_external,
                   normalize_resolve_calls resolve_calls, fs (abspathFn root_path),
                   builder (abspathFn root_path) granularity include_external
                     (normalize_resolve_calls resolve_calls)⟩,
               by_key := aupsert st.by_key
                 (abspathFn root_path, granularity, include_external,
                   normalize_resolve_calls resolve_calls) st.next_id,
               next_id := st.next_id + 1 }
           st.next_id) := rfl
    rw [step, touch_lru_fresh_no_evict]
    · exact hnotlru
    · exact hcap
  refine ⟨_, hres, rfl, hne, ?_, hroot.symm, hgran.symm, hext.symm, hrc.symm⟩
  rw [hres]
  refine ⟨alookup_aupsert_self _ _ _, (alookup_aupsert_ne _ _ _ _ hne).trans hid,
    alookup_aupsert_self _ _ _, ?_⟩
  show (cache_get _ gid0).1 = some e0
  unfold cache_get
  rw [show alookup (aupsert st.by_id st.next_id _) gid0 = some e0 from
    (alookup_aupsert_ne _ _ _ _ hne).trans hid]

/-- Witness for claim C9: forcing a rebuild of the cached key of `cache0`
leaves `entry0` retrievable under id `0` while the key now maps to the fresh
id `1`. -/
theorem C9_force_rebuild_keeps_old_witness :
    ∃ e1 : GraphEntry,
      e1.graph_id = 1 ∧
      (let st1 := (build_or_get cache0 (fun s => s) fsStale builderStub "/p" "function"
        false "jedi" true).2
       alookup st1.by_key ("/p", "function", false, "jedi") = some 1 ∧
         alookup st1.by_id 0 = some entry0 ∧
         (cache_get st1 0).1 = some entry0 ∧
         e1.root = entry0.root ∧ e1.granularity = entry0.granularity) := by
  obtain ⟨e1, hres, hid1, hne, hlooks, hr, hg, hi, hc⟩ :=
    C9_force_rebuild_keeps_old cache0 (fun s => s) fsStale builderStub "/p" "function"
      false "jedi" 0 entry0 (by decide) (by decide)
      (by decide) (by decide) (by decide) (by decide) (by decide) (by decide) (by decide)
  exact ⟨e1, hid1, hlooks.1, hlooks.2.1, hlooks.2.2.2, hr.symm ▸ rfl, hg.symm ▸ rfl⟩

/-- Claim C3: for every call expression inside a function or method body the
resolution strategies run in the fixed order fallback → semantic (only when
the mode is `"jedi"`, i.e. `use_jedi`, which `build_function_graph` sets to
`resolve_calls = "jedi"`) → receiver-type inference (attribute calls only) →
last-resort name match (attribute calls only), and the resolver stops at the
first strategy that returns any targets. -/
theorem C3_strategy_order (env : P2Env) (g : Graph) (lt : LocalTypes) (func_node : PyExpr) :
    (resolve_fallback func_node env.mod_alias env.func_alias ≠ [] →
      callTargets env g lt func_node =
        resolve_fallback func_node env.mod_alias env.func_alias) ∧
    (resolve_fallback func_node env.mod_alias env.func_alias = [] →
      env.use_jedi = true →
      resolve_with_jedi_defs env.relpathFn (env.jediInfer env.path func_node)
        env.include_external ≠ [] →
      callTargets env g lt func_node =
        resolve_with_jedi_defs env.relpathFn (env.jediInfer env.path func_node)
          env.include_external) ∧
    (resolve_fallback func_node env.mod_alias env.func_alias = [] →
      (env.use_jedi = false ∨
        resolve_with_jedi_defs env.relpathFn (env.jediInfer env.path func_node)
          env.include_external = []) →
      receiverTypeTargets env lt func_node ≠ [] →
      callTargets env g lt func_node = receiverTypeTargets env lt func_node) ∧
    (resolve_fallback func_node env.mod_alias env.func_alias = [] →
      (env.use_jedi = false ∨
        resolve_with_jedi_defs env.relpathFn (env.jediInfer env.path func_node)
          env.include_external = []) →
      receiverTypeTargets env lt func_node = [] →
      callTargets env g lt func_node = lastResortTargets g func_node) ∧
    ((∀ recv a, func_node ≠ PyExpr.attr recv a) →
      receiverTypeTargets env lt func_node = [] ∧ lastResortTargets g func_node = []) := by
  refine ⟨?_, ?_, ?_, ?_, ?_⟩
  · intro h
    simp [callTargets, h]
  · intro h1 h2 h3
    simp [callTargets, h1, h2, h3]
  · intro h1 h2 h3
    rcases h2 with h2 | h2
    · simp [callTargets, h1, h2, h3]
    · by_cases hj : env.use_jedi
      · simp [callTargets, h1, h2, hj, h3]
      · simp [callTargets, h1, hj, h3]
  · intro h1 h2 h3
    rcases h2 with h2 | h2
    · simp [callTargets, h1, h2, h3]
    · by_cases hj : env.use_jedi
      · simp [callTargets, h1, h2, hj, h3]
      · simp [callTargets, h1, hj, h3]
  · intro h
    cases func_node with
    | name i => exact ⟨rfl, rfl⟩
    | attr recv a => exact absurd rfl (h recv a)
    | call f args => exact ⟨rfl, rfl⟩
    | other => exact ⟨rfl, rfl⟩

/-- Witness for claim C3: the fallback short-circuits the chain on an
aliased call, and with everything empty an attribute call reaches the last
resort (which here resolves uniquely). -/
theorem C3_strategy_order_witness :
    (callTargets { plainEnv with func_alias := [("add_nums", "utils.c.add")] }
        Graph.empty [] (.name "add_nums") = [("utils/c.py", "add")]) ∧
    (callTargets plainEnv
        ⟨[{ id := "func:x.py:A.run", type := "method", file := some "x.py",
            name := some "run", qualname := some "A.run", class_name := some "A" }], []⟩
        [] (.attr (.name "obj") "run") = [("x.py", "A.run")]) := by
  constructor
  · have h := (C3_strategy_order { plainEnv with func_alias := [("add_nums", "utils.c.add")] }
      Graph.empty [] (.name "add_nums")).1 (by decide)
    rw [h]
    decide
  · have h := (C3_strategy_order plainEnv
      ⟨[{ id := "func:x.py:A.run", type := "method", file := some "x.py",
          name := some "run", qualname := some "A.run", class_name := some "A" }], []⟩
      [] (.attr (.name "obj") "run")).2.2.2.1 (by decide) (Or.inl (by decide)) (by decide)
    rw [h]
    decide

/-- Claim C2: for an attribute call that no earlier strategy resolved, the
last-resort strategy emits a call edge only when exactly one method node in
the whole graph bears the attribute as its simple name; with zero or several
candidates the call site contributes no edge at all. -/
theorem C2_last_resort_unique (env : P2Env) (g : Graph) (lt : LocalTypes)
    (recv : PyExpr) (attrName : String) (caller_id : String)
    (hfb : resolve_fallback (.attr recv attrName) env.mod_alias env.func_alias = [])
    (hjd : env.use_jedi = true →
      resolve_with_jedi_defs env.relpathFn (env.jediInfer env.path (.attr recv attrName))
        env.include_external = [])
    (hrc : receiverTypeTargets env lt (.attr recv attrName) = []) :
    ((lastResortCands g attrName).length ≠ 1 →
      callTargets env g lt (.attr recv attrName) = [] ∧
      materialize_call g caller_id (callTargets env g lt (.attr recv attrName)) = g) ∧
    (∀ n, lastResortCands g attrName = [n] →
      callTargets env g lt (.attr recv attrName) =
        [(n.file.getD "", n.qualname.getD "")]) := by
  have hchain : callTargets env g lt (.attr recv attrName) =
      lastResortTargets g (.attr recv attrName) := by
    by_cases hj : env.use_jedi
    · simp [callTargets, hfb, hj, hjd hj, hrc]
    · simp [callTargets, hfb, hj, hrc]
  constructor
  · intro hlen
    have hlr : lastResortTargets g (.attr recv attrName) = [] := by
      cases hc : lastResortCands g attrName with
      | nil => simp [lastResortTargets, hc]
      | cons n rest =>
        cases rest with
        | nil => exact absurd (by rw [hc]; rfl) hlen
        | cons m rest2 => simp [lastResortTargets, hc]
    rw [hchain, hlr]
    exact ⟨rfl, rfl⟩
  · intro n hn
    rw [hchain]
    simp [lastResortTargets, hn]

/-- Witness for claim C2: in the two-`run` project (spec scenario 5) the
candidate count is 2, so the call site emits nothing; shrinking the graph to
one of the two method nodes makes the unique candidate resolve. -/
theorem C2_last_resort_unique_witness :
    ((lastResortCands (build_function_graph twoRunFiles (fun s => s) (fun _ _ => [])
        false "fallback_only") "run").length = 2 ∧
      materialize_call (build_function_graph twoRunFiles (fun s => s) (fun _ _ => [])
          false "fallback_only") "func:z.py:go"
        (callTargets plainEnv (build_function_graph twoRunFiles (fun s => s) (fun _ _ => [])
          false "fallback_only") [] (.attr (.name "obj") "run")) =
        build_function_graph twoRunFiles (fun s => s) (fun _ _ => []) false "fallback_only") ∧
    callTargets plainEnv
      ⟨[{ id := "func:x.py:A.run", type := "method", file := some "x.py",
          name := some "run", qualname := some "A.run", class_name := some "A" }], []⟩
      [] (.attr (.name "obj") "run") = [("x.py", "A.run")] := by
  refine ⟨⟨by decide, ?_⟩, ?_⟩
  · exact ((C2_last_resort_unique plainEnv _ [] (.name "obj") "run" "func:z.py:go"
      (by decide) (fun h => by simp [plainEnv] at h) (by decide)).1 (by decide)).2
  · have h := (C2_last_resort_unique plainEnv
      ⟨[{ id := "func:x.py:A.run", type := "method", file := some "x.py",
          name := some "run", qualname := some "A.run", class_name := some "A" }], []⟩
      [] (.name "obj") "run" "caller" (by decide) (fun h => by simp [plainEnv] at h)
      (by decide)).2
      ⟨"func:x.py:A.run", "method", none, some "x.py", some "run", some "A.run", some "A"⟩
      (by decide)
    rw [h]
    decide

theorem Graph.nodesList_add_edge (g : Graph) (s d t : String) :
    (g.add_edge s d t).nodesList = g.nodesList := by
  unfold Graph.add_edge
  split <;> rfl

theorem Graph.hasNode_add_edge (g : Graph) (s d t id : String) :
    (g.add_edge s d t).hasNode id = g.hasNode id := by
  unfold Graph.hasNode
  rw [Graph.nodesList_add_edge]

theorem Graph.mem_add_edge {g : Graph} {e : String × String × String} (s d t : String)
    (h : e ∈ (g.add_edge s d t).edgesList) : e ∈ g.edgesList ∨ e = (s, d, t) := by
  unfold Graph.add_edge at h
  split at h
  · exact Or.inl h
  · rcases List.mem_append.mp h with h1 | h1
    · exact Or.inl h1
    · exact Or.inr (List.mem_singleton.mp h1)

theorem jediResultStep_mono (relpathFn : String → String) (ie : Bool)
    (defs : List JediDef) (init : List (String × String)) (x : String × String)
    (hx : x ∈ init) : x ∈ defs.foldl (jediResultStep relpathFn ie) init := by
  induction defs generalizing init with
  | nil => exact hx
  | cons d rest ih =>
    apply ih
    unfold jediResultStep
    split
    · split
      · exact List.mem_append_left _ hx
      · exact hx
    · exact List.mem_append_left _ hx

/-- Counterexample for claim C1: in a one-file project where the semantic
engine infers a definition outside the root (no module path) for the only
call, a `function`-granularity build with `include_external = true` keeps
*no* pseudo-id in the built graph: the resolver returns the pseudo-target,
but edge materialization drops it because `func:<external>:extfun:extfun`
is not a node.  The claim's "kept in the built graph" is false. -/
theorem C1_counterexample :
    extInfer "/p/a.py" (.attr (.name "x") "ext") =
      [{ module_path := none, name := "extfun", full_name := none, module_name := none }] ∧
    resolve_with_jedi_defs (fun s => s) (extInfer "/p/a.py" (.attr (.name "x") "ext")) true =
      [("<external>:extfun", "extfun")] ∧
    (build_function_graph extFiles (fun s => s) extInfer true "jedi").edgesList =
      [("file:a.py", "func:a.py:f", "contains")] ∧
    (build_function_graph extFiles (fun s => s) extInfer true "jedi").nodeIds =
      ["file:a.py", "func:a.py:f"] := by
  decide

/-- Claim C1 (amended): with `include_external = true` the *resolver* keeps
every no-module-path definition as the pseudo-target
`(<external>:name, name)`, and with `include_external = false` such
definitions are dropped from the resolver's results; at edge
materialization, however, a target only becomes an edge of the built graph
when its callee id is an existing node, which a `<external>:` pseudo-id
never is — so external definitions reach the resolver's target list but not
the built graph. -/
theorem C1_external_pseudo_targets (relpathFn : String → String) :
    (∀ (defs : List JediDef) (d : JediDef), d ∈ defs → pyTruthy d.module_path = false →
      (s!"<external>:{d.name}", d.name) ∈ resolve_with_jedi_defs relpathFn defs true) ∧
    (∀ defs : List JediDef,
      resolve_with_jedi_defs relpathFn defs false =
        resolve_with_jedi_defs relpathFn (defs.filter (fun d => pyTruthy d.module_path))
          false) ∧
    (∀ (g : Graph) (caller : String) (targets : List (String × String))
        (e : String × String × String), e ∈ (materialize_call g caller targets).edgesList →
      e ∈ g.edgesList ∨ (e.1 = caller ∧ e.2.2 = "call" ∧ g.hasNode e.2.1 = true)) := by
  refine ⟨?_, ?_, ?_⟩
  · intro defs d hmem hfalsy
    have key : ∀ (defs : List JediDef) (init : List (String × String)), d ∈ defs →
        (s!"<external>:{d.name}", d.name) ∈
          defs.foldl (jediResultStep relpathFn true) init := by
      intro defs
      induction defs with
      | nil => intro init h; cases h
      | cons d0 rest ih =>
        intro init h
        rcases List.mem_cons.mp h with h0 | h0
        · subst h0
          rw [List.foldl_cons]
          apply jediResultStep_mono
          simp only [jediResultStep, hfalsy, Bool.not_false, if_pos rfl, if_true]
          exact List.mem_append_right _ (List.mem_singleton.mpr rfl)
        · rw [List.foldl_cons]
          exact ih _ h0
    exact key defs [] hmem
  · intro defs
    unfold resolve_with_jedi_defs
    generalize [] = init
    induction defs generalizing init with
    | nil => rfl
    | cons d rest ih =>
      cases hd : pyTruthy d.module_path with
      | false =>
        rw [List.foldl_cons,
          show jediResultStep relpathFn false init d = init from by
            simp [jediResultStep, hd],
          show List.filter (fun d => pyTruthy d.module_path) (d :: rest) =
              List.filter (fun d => pyTruthy d.module_path) rest from by
            simp [List.filter_cons, hd]]
        exact ih init
      | true =>
        rw [show List.filter (fun d => pyTruthy d.module_path) (d :: rest) =
              d :: List.filter (fun d => pyTruthy d.module_path) rest from by
            simp [List.filter_cons, hd],
          List.foldl_cons, List.foldl_cons]
        exact ih _
  · intro g caller targets
    induction targets generalizing g with
    | nil => intro e he; exact Or.inl he
    | cons t rest ih =>
      intro e he
      have hstep : materialize_call g caller (t :: rest) =
          materialize_call (if g.hasNode s!"func:{t.1}:{t.2}" = true
            then g.add_edge caller s!"func:{t.1}:{t.2}" "call" else g) caller rest := rfl
      rw [hstep] at he
      by_cases hn : g.hasNode s!"func:{t.1}:{t.2}" = true
      · rw [if_pos hn] at he
        rcases ih _ e he with h1 | h1
        · rcases Graph.mem_add_edge _ _ _ h1 with h2 | h2
          · exact Or.inl h2
          · subst h2
            exact Or.inr ⟨rfl, rfl, hn⟩
        · rw [Graph.hasNode_add_edge] at h1
          exact Or.inr h1
      · rw [if_neg hn] at he
        exact ih _ e he

/-- Witness for the amended claim C1: the pseudo-target is kept by the
resolver under `include_external = true`, dropped under `false`, and a
materialized edge always points at an existing node. -/
theorem C1_external_pseudo_targets_witness :
    (("<external>:extfun", "extfun") ∈ resolve_with_jedi_defs (fun s => s)
      [{ module_path := none, name := "extfun", full_name := none, module_name := none }]
      true) ∧
    (resolve_with_jedi_defs (fun s => s)
        [{ module_path := none, name := "extfun", full_name := none, module_name := none }]
        false =
      resolve_with_jedi_defs (fun s => s)
        (List.filter (fun d => pyTruthy d.module_path)
          [{ module_path := none, name := "extfun", full_name := none,
             module_name := none }]) false) ∧
    (("func:z.py:go", "func:x.py:A.run", "call") ∈
        (⟨[{ id := "func:x.py:A.run", type := "method" }], []⟩ : Graph).edgesList ∨
      (("func:z.py:go", "func:x.py:A.run", "call").1 = "func:z.py:go" ∧
        ("func:z.py:go", "func:x.py:A.run", "call").2.2 = "call" ∧
        (⟨[{ id := "func:x.py:A.run", type := "method" }], []⟩ : Graph).hasNode
          ("func:z.py:go", "func:x.py:A.run", "call").2.1 = true)) := by
  obtain ⟨h1, h2, h3⟩ := C1_external_pseudo_targets (fun s => s)
  refine ⟨h1 _ ⟨none, "extfun", none, none⟩ (by decide) (by decide), h2 _, ?_⟩
  exact h3 (⟨[{ id := "func:x.py:A.run", type := "method" }], []⟩ : Graph) "func:z.py:go"
    [("x.py", "A.run")] ("func:z.py:go", "func:x.py:A.run", "call") (by decide)

theorem length_insertStr (a : String) (l : List String) :
    (insertStr a l).length = l.length + 1 := by
  induction l with
  | nil => rfl
  | cons b r ih =>
    unfold insertStr
    split
    · rfl
    · simp [ih]

theorem length_sortStrings (l : List String) : (sortStrings l).length = l.length := by
  induction l with
  | nil => rfl
  | cons a r ih =>
    unfold sortStrings
    rw [length_insertStr, ih]
    simp

theorem vizLoopF_cap (adj rev : Adj) (direction : String) (depth maxNodes : Nat) :
    ∀ (fuel : Nat) (q : List (String × Nat)) (seen : List String)
      (acc : List (String × String)), seen.length ≤ maxNodes →
    ∀ (s : List String) (e : List (String × String)) (t : Bool),
      vizLoopF adj rev direction depth maxNodes fuel q seen acc = some (s, e, t) →
      s.length ≤ maxNodes + 1 ∧ (t = true ↔ s.length = maxNodes + 1) := by
  intro fuel
  induction fuel with
  | zero =>
    intro q seen acc hlen s e t hres
    simp [vizLoopF] at hres
  | succ n ih =>
    intro q seen acc hlen s e t hres
    cases q with
    | nil =>
      simp only [vizLoopF, Option.some.injEq, Prod.mk.injEq] at hres
      obtain ⟨hs, -, ht⟩ := hres
      subst hs
      constructor
      · omega
      · rw [← ht]
        constructor
        · intro h
          cases h
        · intro h
          omega
    | cons qd rest =>
      obtain ⟨cur, d⟩ := qd
      simp only [vizLoopF] at hres
      by_cases hseen : cur ∈ seen
      · rw [if_pos hseen] at hres
        exact ih rest seen acc hlen s e t hres
      · rw [if_neg hseen] at hres
        by_cases hcap : (seen ++ [cur]).length > maxNodes
        · rw [if_pos hcap] at hres
          simp only [Option.some.injEq, Prod.mk.injEq] at hres
          obtain ⟨hs, -, ht⟩ := hres
          subst hs
          have hlen2 : (seen ++ [cur]).length = maxNodes + 1 := by
            simp only [List.length_append, List.length_singleton]
            simp only [List.length_append, List.length_singleton] at hcap
            omega
          constructor
          · omega
          · rw [← ht, hlen2]
            simp
        · rw [if_neg hcap] at hres
          have hlen' : (seen ++ [cur]).length ≤ maxNodes := by
            simp only [List.length_append, List.length_singleton] at hcap ⊢
            omega
          by_cases hdep : depth ≤ d
          · rw [if_pos hdep] at hres
            exact ih rest (seen ++ [cur]) acc hlen' s e t hres
          · rw [if_neg hdep] at hres
            exact ih _ (seen ++ [cur]) _ hlen' s e t hres

theorem collect_subgraph_cap (g : GraphData) (f : String) (direction : String)
    (depth : Nat) (edgeTypes : List String) (maxNodes : Nat) (hf : f ≠ "") :
    (collect_subgraph g (some f) direction depth edgeTypes maxNodes).1.length ≤
      maxNodes + 1 ∧
    ((collect_subgraph g (some f) direction depth edgeTypes maxNodes).2.2 = true ↔
      (collect_subgraph g (some f) direction depth edgeTypes maxNodes).1.length =
        maxNodes + 1) := by
  unfold collect_subgraph
  rw [if_neg (by simpa using hf)]
  rcases hv : vizLoopF (vizBuildAdj g edgeTypes) (vizBuildRev g edgeTypes) direction depth
      maxNodes (vizFuel (vizBuildAdj g edgeTypes) (vizBuildRev g edgeTypes))
      [((some f).getD "", 0)] [] [] with - | ⟨s, e, t⟩
  · simp only [hv]
    constructor
    · simp
    · simp
  · simp only [hv]
    have := vizLoopF_cap (vizBuildAdj g edgeTypes) (vizBuildRev g edgeTypes) direction depth
      maxNodes _ _ [] [] (by simp) s e t hv
    simpa [length_sortStrings] using this

/-- Counterexample for claim C7: on the chain graph `a → b → c`, a focused
export from `a` with `direction=out`, `depth=1` and `max_nodes=1` renders 2
nodes — the collected subgraph exceeds `max_nodes` (the BFS adds a node to
`seen` before checking the cap and then returns the oversized set). -/
theorem C7_counterexample :
    (export_mermaid chainGraph (some "a") "out" 1 [] 1).2.nodes_rendered = 2 ∧
    1 < (export_mermaid chainGraph (some "a") "out" 1 [] 1).2.nodes_rendered ∧
    (export_mermaid chainGraph (some "a") "out" 1 [] 1).2.truncated = true := by
  decide

/-- Claim C7 (amended): for every graph, direction, non-negative depth and
non-empty focus, the subgraph collected for export contains at most
`max_nodes + 1` nodes (not `max_nodes`: the loop admits one node over the
cap before breaking), and the metadata flags truncation exactly when the
collection exceeded `max_nodes`, i.e. `truncated = true` iff
`max_nodes + 1` nodes were collected. -/
theorem C7_subgraph_cap (g : GraphData) (f : String) (direction : String) (depth : Nat)
    (edgeTypes : List String) (maxNodes : Nat) (hf : f ≠ "") :
    (collect_subgraph g (some f) direction depth edgeTypes maxNodes).1.length ≤
      maxNodes + 1 ∧
    ((collect_subgraph g (some f) direction depth edgeTypes maxNodes).2.2 = true ↔
      (collect_subgraph g (some f) direction depth edgeTypes maxNodes).1.length =
        maxNodes + 1) ∧
    (export_mermaid g (some f) direction depth edgeTypes maxNodes).2.nodes_rendered ≤
      maxNodes + 1 ∧
    ((export_mermaid g (some f) direction depth edgeTypes maxNodes).2.truncated = true ↔
      (export_mermaid g (some f) direction depth edgeTypes maxNodes).2.nodes_rendered =
        maxNodes + 1) := by
  obtain ⟨h1, h2⟩ := collect_subgraph_cap g f direction depth edgeTypes maxNodes hf
  obtain ⟨h3, h4⟩ := collect_subgraph_cap g f direction depth
    (if edgeTypes = [] then ["call"] else edgeTypes) maxNodes hf
  refine ⟨h1, h2, ?_, ?_⟩
  · unfold export_mermaid
    rcases hsc : collect_subgraph g (some f) direction depth
        (if edgeTypes = [] then ["call"] else edgeTypes) maxNodes with ⟨ns, es, tr⟩
    rw [hsc] at h3
    simp only [hsc]
    simpa using h3
  · unfold export_mermaid
    rcases hsc : collect_subgraph g (some f) direction depth
        (if edgeTypes = [] then ["call"] else edgeTypes) maxNodes with ⟨ns, es, tr⟩
    rw [hsc] at h4
    simp only [hsc]
    simpa using h4

/-- Witness for the amended claim C7: on the chain graph the cap `1` yields
2 = max_nodes + 1 rendered nodes with the truncation flag set. -/
theorem C7_subgraph_cap_witness :
    (collect_subgraph chainGraph (some "a") "out" 1 [] 1).1.length ≤ 2 ∧
    (export_mermaid chainGraph (some "a") "out" 1 [] 1).2.truncated = true := by
  obtain ⟨h1, h2, h3, h4⟩ :=
    C7_subgraph_cap chainGraph "a" "out" 1 [] 1 (by decide)
  exact ⟨h1, h4.mpr (by decide)⟩

theorem countUnvisited_append_le (u v : List String) (c : String) :
    countUnvisited u (v ++ [c]) ≤ countUnvisited u v := by
  apply List.countP_mono_left
  intro a _ ha
  simp only [decide_eq_true_eq, List.mem_append, List.mem_singleton, not_or] at ha ⊢
  exact ha.1

theorem countUnvisited_append_lt (u v : List String) (c : String) (hu : c ∈ u)
    (hv : c ∉ v) : countUnvisited u (v ++ [c]) < countUnvisited u v := by
  unfold countUnvisited
  induction u with
  | nil => cases hu
  | cons a u ih =>
    rw [List.countP_cons, List.countP_cons]
    by_cases hc : c ∈ u
    · have hlt := ih hc
      have hle : (if decide (a ∉ v ++ [c]) = true then 1 else 0) ≤
          (if decide (a ∉ v) = true then 1 else 0) := by
        by_cases hav : a ∈ v ++ [c]
        · simp [hav]
        · have : a ∉ v := fun h => hav (List.mem_append_left _ h)
          simp [hav, this]
      simp only [] at hle ⊢
      omega
    · have hac : a = c := by
        rcases List.mem_cons.mp hu with h | h
        · exact h.symm
        · exact absurd h hc
      subst hac
      have h1 : decide (a ∉ v ++ [a]) = false := by simp
      have h2 : decide (a ∉ v) = true := by simpa using hv
      simp only [] at h1 h2 ⊢
      rw [h1, h2]
      have hmono : u.countP (fun x => decide (x ∉ v ++ [a])) ≤
          u.countP (fun x => decide (x ∉ v)) := by
        apply List.countP_mono_left
        intro b _ hb
        simp only [decide_eq_true_eq, List.mem_append, List.mem_singleton, not_or] at hb ⊢
        exact hb.1
      simp only [Bool.false_eq_true, if_false, if_true]
      omega

theorem adjGet_length_le (adj : Adj) (k : String) :
    (adjGet adj k).length ≤ (adjUniverse adj).length := by
  induction adj with
  | nil => simp [adjGet, alookup]
  | cons kv rest ih =>
    obtain ⟨k1, vs⟩ := kv
    by_cases h : k1 = k
    · subst h
      simp [adjGet, alookup, adjUniverse]
      omega
    · simp only [adjGet, alookup, if_neg h, adjUniverse, List.flatMap_cons,
        List.length_append, List.length_cons]
      have := ih
      simp only [adjGet, adjUniverse] at this
      omega

theorem adjGet_eq_nil_of_not_mem (adj : Adj) (k : String) (h : k ∉ adjUniverse adj) :
    adjGet adj k = [] := by
  induction adj with
  | nil => rfl
  | cons kv rest ih =>
    obtain ⟨k1, vs⟩ := kv
    simp only [adjUniverse, List.flatMap_cons, List.mem_append, List.mem_cons, not_or] at h
    have hne : k1 ≠ k := fun he => h.1.1 he.symm
    simp only [adjGet, alookup, if_neg hne]
    apply ih
    simpa [adjUniverse] using h.2

theorem dfsLoopF_isSome (adj : Adj) : ∀ (fuel : Nat) (q visited : List String),
    ((adjUniverse adj).length + 2) * countUnvisited (adjUniverse adj) visited + q.length <
      fuel →
    (dfsLoopF adj fuel q visited).isSome := by
  intro fuel
  induction fuel with
  | zero => intro q v h; omega
  | succ n ih =>
    intro q v h
    cases q with
    | nil => simp [dfsLoopF]
    | cons cur rest =>
      simp only [dfsLoopF]
      by_cases hc : cur ∈ v
      · rw [if_pos hc]
        apply ih
        simp only [List.length_cons] at h
        omega
      · rw [if_neg hc]
        apply ih
        simp only [List.length_cons] at h
        simp only [List.length_append, List.length_reverse]
        by_cases hu : cur ∈ adjUniverse adj
        · have h1 := countUnvisited_append_lt (adjUniverse adj) v cur hu hc
          have h2 : ((adjGet adj cur).filter (fun n => decide (n ∉ v))).length ≤
              (adjGet adj cur).length := List.length_filter_le _ _
          have h3 := adjGet_length_le adj cur
          have h4 : ((adjUniverse adj).length + 2) *
              (countUnvisited (adjUniverse adj) (v ++ [cur]) + 1) ≤
              ((adjUniverse adj).length + 2) * countUnvisited (adjUniverse adj) v :=
            Nat.mul_le_mul_left _ h1
          rw [Nat.mul_add, Nat.mul_one] at h4
          omega
        · rw [adjGet_eq_nil_of_not_mem adj cur hu]
          simp only [List.filter_nil, List.length_nil]
          have h2 := countUnvisited_append_le (adjUniverse adj) v cur
          have h4 := Nat.mul_le_mul_left ((adjUniverse adj).length + 2) h2
          omega

theorem countUnvisited_nil (u : List String) : countUnvisited u [] = u.length := by
  unfold countUnvisited
  simp

theorem dfsLoopF_dfsFuel_isSome (adj : Adj) (x : String) :
    (dfsLoopF adj (dfsFuel adj) [x] []).isSome := by
  apply dfsLoopF_isSome
  rw [countUnvisited_nil]
  unfold dfsFuel
  simp


theorem mem_adjGet_adjInsert (adj : Adj) (s t a b : String) :
    b ∈ adjGet (adjInsert adj s t) a ↔ b ∈ adjGet adj a ∨ (a = s ∧ b = t) := by
  induction adj with
  | nil =>
    by_cases h : s = a
    · subst h
      simp [adjInsert, adjGet, alookup]
    · simp [adjInsert, adjGet, alookup, h]
      exact fun ha => absurd ha.symm h
  | cons kv rest ih =>
    obtain ⟨k, vs⟩ := kv
    by_cases hk : k = s
    · subst hk
      by_cases ha : k = a
      · subst ha
        simp [adjInsert, adjGet, alookup]
      · simp [adjInsert, adjGet, alookup, ha]
        exact fun hak _ => absurd hak.symm ha
    · by_cases ha : k = a
      · subst ha
        simp only [adjInsert, if_neg hk, adjGet, alookup, if_pos rfl, Option.getD_some]
        have hks : ¬k = s := hk
        simp [hks]
      · simp only [adjInsert, if_neg hk, adjGet, alookup, if_neg ha]
        exact ih

theorem mem_adjGet_foldl (edges : List EdgeData) (pass : EdgeData → Bool)
    (fs ft : EdgeData → String) (init : Adj) (a b : String) :
    b ∈ adjGet (edges.foldl
        (fun adj e => if pass e then adjInsert adj (fs e) (ft e) else adj) init) a ↔
      b ∈ adjGet init a ∨ ∃ e ∈ edges, pass e = true ∧ fs e = a ∧ ft e = b := by
  induction edges generalizing init with
  | nil => simp
  | cons e0 rest ih =>
    rw [List.foldl_cons]
    by_cases hp : pass e0
    · rw [if_pos hp, ih, mem_adjGet_adjInsert]
      constructor
      · rintro ((h | ⟨ha, hb⟩) | ⟨e, he, hpe, ha, hb⟩)
        · exact Or.inl h
        · exact Or.inr ⟨e0, List.mem_cons_self _ _, hp, ha.symm, hb.symm⟩
        · exact Or.inr ⟨e, List.mem_cons_of_mem _ he, hpe, ha, hb⟩
      · rintro (h | ⟨e, he, hpe, ha, hb⟩)
        · exact Or.inl (Or.inl h)
        · rcases List.mem_cons.mp he with he0 | he0
          · subst he0
            exact Or.inl (Or.inr ⟨ha.symm, hb.symm⟩)
          · exact Or.inr ⟨e, he0, hpe, ha, hb⟩
    · rw [if_neg hp, ih]
      constructor
      · rintro (h | ⟨e, he, hpe, ha, hb⟩)
        · exact Or.inl h
        · exact Or.inr ⟨e, List.mem_cons_of_mem _ he, hpe, ha, hb⟩
      · rintro (h | ⟨e, he, hpe, ha, hb⟩)
        · exact Or.inl h
        · rcases List.mem_cons.mp he with he0 | he0
          · subst he0
            exact absurd hpe (by simpa using hp)
          · exact Or.inr ⟨e, he0, hpe, ha, hb⟩

theorem edgePass_nil (e : EdgeData) : edgePass [] e = true := rfl

theorem adjStep_build_adjacency (g : GraphData) (a b : String) :
    adjStep (build_adjacency g []) a b ↔ edgeStep g a b := by
  unfold adjStep edgeStep build_adjacency
  rw [mem_adjGet_foldl]
  simp [adjGet, alookup, edgePass_nil]

theorem adjStep_build_reverse_adjacency (g : GraphData) (a b : String) :
    adjStep (build_reverse_adjacency g []) a b ↔ edgeStep g b a := by
  unfold adjStep edgeStep build_reverse_adjacency
  rw [mem_adjGet_foldl]
  simp only [adjGet, alookup, edgePass_nil, Option.getD_none, List.not_mem_nil, false_or,
    true_and]
  constructor
  · rintro ⟨e, he, h1, h2⟩
    exact ⟨e, he, h2, h1⟩
  · rintro ⟨e, he, h1, h2⟩
    exact ⟨e, he, h2, h1⟩

theorem dfsLoopF_mono (adj : Adj) : ∀ (fuel : Nat) (q visited vis' : List String),
    dfsLoopF adj fuel q visited = some vis' → ∀ v ∈ visited, v ∈ vis' := by
  intro fuel
  induction fuel with
  | zero => intro q v vis' h; simp [dfsLoopF] at h
  | succ n ih =>
    intro q v vis' h
    cases q with
    | nil =>
      simp only [dfsLoopF, Option.some.injEq] at h
      subst h
      exact fun x hx => hx
    | cons cur rest =>
      simp only [dfsLoopF] at h
      by_cases hc : cur ∈ v
      · rw [if_pos hc] at h
        exact ih rest v vis' h
      · rw [if_neg hc] at h
        intro x hx
        exact ih _ _ _ h x (List.mem_append_left _ hx)

theorem dfsLoopF_sound (adj : Adj) (P : String → Prop)
    (hstep : ∀ v, P v → ∀ n ∈ adjGet adj v, P n) :
    ∀ (fuel : Nat) (q visited vis' : List String),
    dfsLoopF adj fuel q visited = some vis' →
    (∀ v ∈ visited, P v) → (∀ s ∈ q, P s) → ∀ v ∈ vis', P v := by
  intro fuel
  induction fuel with
  | zero => intro q v vis' h; simp [dfsLoopF] at h
  | succ n ih =>
    intro q v vis' h hv hq
    cases q with
    | nil =>
      simp only [dfsLoopF, Option.some.injEq] at h
      subst h
      exact hv
    | cons cur rest =>
      simp only [dfsLoopF] at h
      by_cases hc : cur ∈ v
      · rw [if_pos hc] at h
        exact ih rest v vis' h hv (fun s hs => hq s (List.mem_cons_of_mem _ hs))
      · rw [if_neg hc] at h
        have hcur : P cur := hq cur (List.mem_cons_self _ _)
        apply ih _ _ _ h
        · intro x hx
          rcases List.mem_append.mp hx with hx | hx
          · exact hv x hx
          · rw [List.mem_singleton.mp hx]
            exact hcur
        · intro s hs
          rcases List.mem_append.mp hs with hs | hs
          · have hs2 := List.mem_reverse.mp hs
            have hs3 := (List.mem_filter.mp hs2).1
            exact hstep cur hcur s hs3
          · exact hq s (List.mem_cons_of_mem _ hs)

theorem dfsLoopF_closed (adj : Adj) : ∀ (fuel : Nat) (q visited vis' : List String),
    dfsLoopF adj fuel q visited = some vis' →
    (∀ v ∈ visited, ∀ n ∈ adjGet adj v, n ∈ visited ∨ n ∈ q) →
    ∀ v ∈ vis', ∀ n ∈ adjGet adj v, n ∈ vis' := by
  intro fuel
  induction fuel with
  | zero => intro q v vis' h; simp [dfsLoopF] at h
  | succ n ih =>
    intro q v vis' h hI
    cases q with
    | nil =>
      simp only [dfsLoopF, Option.some.injEq] at h
      subst h
      intro x hx m hm
      rcases hI x hx m hm with h1 | h1
      · exact h1
      · cases h1
    | cons cur rest =>
      simp only [dfsLoopF] at h
      by_cases hc : cur ∈ v
      · rw [if_pos hc] at h
        apply ih rest v vis' h
        intro x hx m hm
        rcases hI x hx m hm with h1 | h1
        · exact Or.inl h1
        · rcases List.mem_cons.mp h1 with h2 | h2
          · subst h2
            exact Or.inl hc
          · exact Or.inr h2
      · rw [if_neg hc] at h
        apply ih _ _ _ h
        intro x hx m hm
        rcases List.mem_append.mp hx with hx1 | hx1
        · rcases hI x hx1 m hm with h1 | h1
          · exact Or.inl (List.mem_append_left _ h1)
          · rcases List.mem_cons.mp h1 with h2 | h2
            · subst h2
              exact Or.inl (List.mem_append_right _ (List.mem_singleton.mpr rfl))
            · exact Or.inr (List.mem_append_right _ h2)
        · rw [List.mem_singleton.mp hx1] at hm
          by_cases hmv : m ∈ v
          · exact Or.inl (List.mem_append_left _ hmv)
          · refine Or.inr (List.mem_append_left _ ?_)
            rw [List.mem_reverse]
            exact List.mem_filter.mpr ⟨hm, by simpa using hmv⟩

theorem dfsLoopF_covers_stack (adj : Adj) : ∀ (fuel : Nat) (q visited vis' : List String),
    dfsLoopF adj fuel q visited = some vis' → ∀ s ∈ q, s ∈ vis' := by
  intro fuel
  induction fuel with
  | zero => intro q v vis' h; simp [dfsLoopF] at h
  | succ n ih =>
    intro q v vis' h
    cases q with
    | nil => intro s hs; cases hs
    | cons cur rest =>
      simp only [dfsLoopF] at h
      intro s hs
      by_cases hc : cur ∈ v
      · rw [if_pos hc] at h
        rcases List.mem_cons.mp hs with h1 | h1
        · subst h1
          exact dfsLoopF_mono adj _ _ _ _ h s hc
        · exact ih rest v vis' h s h1
      · rw [if_neg hc] at h
        rcases List.mem_cons.mp hs with h1 | h1
        · subst h1
          exact dfsLoopF_mono adj _ _ _ _ h s
            (List.mem_append_right _ (List.mem_singleton.mpr rfl))
        · exact ih _ _ _ h s (List.mem_append_right _ h1)

theorem mem_dfs_iff (adj : Adj) (x y : String) (vis : List String)
    (h : dfsLoopF adj (dfsFuel adj) [x] [] = some vis) :
    y ∈ vis ↔ Relation.ReflTransGen (adjStep adj) x y := by
  constructor
  · intro hy
    refine dfsLoopF_sound adj (Relation.ReflTransGen (adjStep adj) x) ?_ _ _ _ _ h
      (by intro v hv; cases hv) ?_ y hy
    · intro v hv n hn
      exact hv.tail hn
    · intro s hs
      rw [List.mem_singleton.mp hs]
  · intro hy
    have hx : x ∈ vis := dfsLoopF_covers_stack adj _ _ _ _ h x (List.mem_singleton.mpr rfl)
    have hclosed := dfsLoopF_closed adj _ _ _ _ h (by intro v hv; cases hv)
    induction hy with
    | refl => exact hx
    | tail hab hbc ih0 => exact hclosed _ ih0 _ hbc

/-- Claim C8: for every graph value and distinct node ids `x` and `y`,
`y ∈ forward_reachable(x)` (DFS over all outgoing edges) iff
`x ∈ reverse_reachable(y)` (DFS over the reverse adjacency). -/
theorem C8_reachability_symmetry (g : GraphData) (x y : String) (hxy : x ≠ y) :
    y ∈ find_dependencies g x ↔ x ∈ find_reverse_dependencies g y := by
  unfold find_dependencies find_reverse_dependencies
  obtain ⟨visF, hF⟩ := Option.isSome_iff_exists.mp
    (dfsLoopF_dfsFuel_isSome (build_adjacency g []) x)
  obtain ⟨visR, hR⟩ := Option.isSome_iff_exists.mp
    (dfsLoopF_dfsFuel_isSome (build_reverse_adjacency g []) y)
  simp only [hF, hR, Option.getD_some]
  rw [List.mem_erase_of_ne hxy.symm, List.mem_erase_of_ne hxy]
  rw [mem_dfs_iff _ _ _ _ hF, mem_dfs_iff _ _ _ _ hR]
  have hiffF : ∀ a b, adjStep (build_adjacency g []) a b ↔ edgeStep g a b :=
    adjStep_build_adjacency g
  have hiffR : ∀ a b, adjStep (build_reverse_adjacency g []) a b ↔
      Function.swap (edgeStep g) a b := fun a b => adjStep_build_reverse_adjacency g a b
  constructor
  · intro h
    rw [show Relation.ReflTransGen (adjStep (build_reverse_adjacency g [])) y x ↔
        Relation.ReflTransGen (Function.swap (edgeStep g)) y x from
      ⟨Relation.ReflTransGen.mono (fun a b => (hiffR a b).mp),
       Relation.ReflTransGen.mono (fun a b => (hiffR a b).mpr)⟩]
    rw [Relation.reflTransGen_swap]
    exact Relation.ReflTransGen.mono (fun a b => (hiffF a b).mp) h
  · intro h
    rw [show Relation.ReflTransGen (adjStep (build_reverse_adjacency g [])) y x ↔
        Relation.ReflTransGen (Function.swap (edgeStep g)) y x from
      ⟨Relation.ReflTransGen.mono (fun a b => (hiffR a b).mp),
       Relation.ReflTransGen.mono (fun a b => (hiffR a b).mpr)⟩] at h
    rw [Relation.reflTransGen_swap] at h
    exact Relation.ReflTransGen.mono (fun a b => (hiffF a b).mpr) h

/-- Witness for claim C8: on the chain graph, `c` is forward-reachable from
`a` iff `a` is reverse-reachable from `c` (both hold). -/
theorem C8_reachability_symmetry_witness :
    ("c" ∈ find_dependencies chainGraph "a") ∧
    ("a" ∈ find_reverse_dependencies chainGraph "c") := by
  have h := C8_reachability_symmetry chainGraph "a" "c" (by decide)
  exact ⟨by decide, h.mp (by decide)⟩

theorem alookup_append {κ α : Type} [DecidableEq κ] (p q : List (κ × α)) (x : κ) :
    alookup (p ++ q) x = if (alookup p x).isSome then alookup p x else alookup q x := by
  induction p with
  | nil => simp [alookup]
  | cons kv rest ih =>
    obtain ⟨k, v⟩ := kv
    by_cases hk : k = x
    · simp [alookup, hk]
    · simp only [List.cons_append, alookup, if_neg hk]
      exact ih

theorem alookup_isSome_iff {κ α : Type} [DecidableEq κ] (p : List (κ × α)) (x : κ) :
    (alookup p x).isSome ↔ x ∈ p.map Prod.fst := by
  induction p with
  | nil => simp [alookup]
  | cons kv rest ih =>
    obtain ⟨k, v⟩ := kv
    by_cases hk : k = x
    · simp [alookup, hk]
    · simp only [alookup, if_neg hk, List.map_cons, List.mem_cons]
      rw [ih]
      constructor
      · exact Or.inr
      · rintro (h | h)
        · exact absurd h.symm hk
        · exact h

theorem alookup_append_left {κ α : Type} [DecidableEq κ] (p q : List (κ × α)) (x : κ)
    (h : x ∈ p.map Prod.fst) : alookup (p ++ q) x = alookup p x := by
  rw [alookup_append, if_pos ((alookup_isSome_iff p x).mpr h)]

theorem alookup_append_right {κ α : Type} [DecidableEq κ] (p q : List (κ × α)) (x : κ)
    (h : x ∉ p.map Prod.fst) : alookup (p ++ q) x = alookup q x := by
  rw [alookup_append, if_neg]
  rw [alookup_isSome_iff]
  exact h

theorem countUnbound_append_le (u : List String) (p : List (String × Option String))
    (b : String × Option String) : countUnbound u (p ++ [b]) ≤ countUnbound u p := by
  apply List.countP_mono_left
  intro a _ ha
  rw [alookup_append] at ha
  by_cases hs : (alookup p a).isSome
  · rw [if_pos hs] at ha
    exact ha
  · simpa using hs

theorem countUnbound_append_lt (u : List String) (p : List (String × Option String))
    (n : String) (v : Option String) (hu : n ∈ u) (hnone : (alookup p n).isNone) :
    countUnbound u (p ++ [(n, v)]) < countUnbound u p := by
  unfold countUnbound
  have hmono : ∀ w : List String, w.countP (fun x => (alookup (p ++ [(n, v)]) x).isNone) ≤
      w.countP (fun x => (alookup p x).isNone) := by
    intro w
    apply List.countP_mono_left
    intro b _ hb
    rw [alookup_append] at hb
    by_cases hs : (alookup p b).isSome
    · rwa [if_pos hs] at hb
    · simpa using hs
  have hnotin : n ∉ p.map Prod.fst := fun hmem => by
    have hsom := (alookup_isSome_iff p n).mpr hmem
    rw [Option.isNone_iff_eq_none] at hnone
    rw [hnone] at hsom
    simp at hsom
  induction u with
  | nil => cases hu
  | cons a u ih =>
    rw [List.countP_cons, List.countP_cons]
    by_cases hc : n ∈ u
    · have hlt := ih hc
      by_cases hs : (alookup p a).isSome
      · rcases Option.isSome_iff_exists.mp hs with ⟨w, hw⟩
        have h1 : alookup (p ++ [(n, v)]) a = some w := by
          rw [alookup_append, if_pos hs, hw]
        simp only [h1, hw, Option.isNone_some]
        omega
      · have heq : alookup p a = none := by
          cases hh : alookup p a with
          | none => rfl
          | some w => rw [hh] at hs; simp at hs
        simp only [heq, Option.isNone_none, if_pos rfl, if_true]
        have hb : (if (alookup (p ++ [(n, v)]) a).isNone = true then 1 else 0) ≤ 1 := by
          split <;> omega
        omega
    · have hac : a = n := by
        rcases List.mem_cons.mp hu with h | h
        · exact h.symm
        · exact absurd h hc
      subst hac
      have h1 : (alookup (p ++ [(a, v)]) a).isNone = false := by
        rw [alookup_append_right p _ a hnotin]
        simp [alookup]
      have h2 : (alookup p a).isNone = true := hnone
      simp only [] at h1 h2 ⊢
      rw [h1, h2]
      have := hmono u
      simp only [Bool.false_eq_true, if_false, if_true]
      omega

theorem mem_adjUniverse_of_mem_adjGet (adj : Adj) (k x : String)
    (h : x ∈ adjGet adj k) : x ∈ adjUniverse adj := by
  induction adj with
  | nil => simp [adjGet, alookup] at h
  | cons kv rest ih =>
    obtain ⟨k1, vs⟩ := kv
    simp only [adjUniverse, List.flatMap_cons, List.mem_append, List.mem_cons]
    by_cases hk : k1 = k
    · subst hk
      simp only [adjGet, alookup, if_pos rfl, Option.getD_some] at h
      exact Or.inl (Or.inr h)
    · simp only [adjGet, alookup, if_neg hk] at h
      have := ih h
      simp only [adjUniverse] at this
      exact Or.inr this

theorem bfsScan_measure (adj : Adj) (cur : String) :
    ∀ (nbrs queue : List String) (p : List (String × Option String)),
    (∀ n ∈ nbrs, n ∈ adjUniverse adj) →
    2 * countUnbound (adjUniverse adj) (bfsScan cur nbrs queue p).2 +
      (bfsScan cur nbrs queue p).1.length ≤
    2 * countUnbound (adjUniverse adj) p + queue.length := by
  intro nbrs
  induction nbrs with
  | nil => intro queue p h; simp [bfsScan]
  | cons n rest ih =>
    intro queue p hsub
    simp only [bfsScan]
    by_cases hn : (alookup p n).isSome
    · rw [if_pos hn]
      exact ih queue p (fun m hm => hsub m (List.mem_cons_of_mem _ hm))
    · rw [if_neg hn]
      have h1 := countUnbound_append_lt (adjUniverse adj) p n (some cur)
        (hsub n (List.mem_cons_self _ _)) (by simpa using hn)
      have h2 := ih (queue ++ [n]) (p ++ [(n, some cur)])
        (fun m hm => hsub m (List.mem_cons_of_mem _ hm))
      simp only [List.length_append, List.length_singleton] at h2
      omega

theorem bfsLoopF_isSome (adj : Adj) (target : String) :
    ∀ (fuel : Nat) (q : List String) (p : List (String × Option String)),
    2 * countUnbound (adjUniverse adj) p + q.length < fuel →
    (bfsLoopF adj target fuel q p).isSome := by
  intro fuel
  induction fuel with
  | zero => intro q p h; omega
  | succ m ih =>
    intro q p h
    cases q with
    | nil => simp [bfsLoopF]
    | cons cur rest =>
      simp only [bfsLoopF]
      by_cases hc : cur = target
      · rw [if_pos hc]
        simp
      · rw [if_neg hc]
        apply ih
        have := bfsScan_measure adj cur (adjGet adj cur) rest p
          (fun n hn => mem_adjUniverse_of_mem_adjGet adj cur n hn)
        simp only [List.length_cons] at h
        omega

theorem countUnbound_le_length (u : List String) (p : List (String × Option String)) :
    countUnbound u p ≤ u.length := List.countP_le_length _

theorem bfsLoopF_bfsFuel_isSome (adj : Adj) (target src : String) :
    (bfsLoopF adj target (bfsFuel adj) [src] [(src, none)]).isSome := by
  apply bfsLoopF_isSome
  have := countUnbound_le_length (adjUniverse adj) [(src, none)]
  unfold bfsFuel
  simp only [List.length_singleton]
  omega

theorem bfsScan_spec (adj : Adj) (src cur : String) :
    ∀ (nbrs queue : List String) (p : List (String × Option String)),
    WFParents adj src p → cur ∈ pmKeys p → (∀ n ∈ nbrs, n ∈ adjGet adj cur) →
    WFParents adj src (bfsScan cur nbrs queue p).2 ∧
    (∀ x ∈ pmKeys p, x ∈ pmKeys (bfsScan cur nbrs queue p).2) ∧
    (∀ n ∈ nbrs, n ∈ pmKeys (bfsScan cur nbrs queue p).2) ∧
    (∀ x ∈ queue, x ∈ (bfsScan cur nbrs queue p).1) ∧
    (∀ x ∈ (bfsScan cur nbrs queue p).1, x ∈ queue ∨ x ∈ pmKeys (bfsScan cur nbrs queue p).2) ∧
    (∀ x ∈ pmKeys (bfsScan cur nbrs queue p).2,
      x ∈ pmKeys p ∨ x ∈ (bfsScan cur nbrs queue p).1) := by
  intro nbrs
  induction nbrs with
  | nil =>
    intro queue p hwf hcur hsub
    simp only [bfsScan]
    exact ⟨hwf, fun x hx => hx, fun n hn => absurd hn (List.not_mem_nil n),
      fun x hx => hx, fun x hx => Or.inl hx, fun x hx => Or.inl hx⟩
  | cons n rest ih =>
    intro queue p hwf hcur hsub
    simp only [bfsScan]
    by_cases hn : (alookup p n).isSome
    · rw [if_pos hn]
      obtain ⟨c1, c2, c3, c4, c5, c6⟩ := ih queue p hwf hcur
        (fun m hm => hsub m (List.mem_cons_of_mem _ hm))
      refine ⟨c1, c2, ?_, c4, c5, c6⟩
      intro m hm
      rcases List.mem_cons.mp hm with h0 | h0
      · subst h0
        exact c2 m ((alookup_isSome_iff p m).mp hn)
      · exact c3 m h0
    · rw [if_neg hn]
      have hfresh : n ∉ pmKeys p := by
        intro hmem
        exact hn ((alookup_isSome_iff p n).mpr hmem)
      have hwf' : WFParents adj src (p ++ [(n, some cur)]) :=
        WFParents.extend p n cur hwf hcur hfresh (hsub n (List.mem_cons_self _ _))
      have hcur' : cur ∈ pmKeys (p ++ [(n, some cur)]) := by
        unfold pmKeys
        rw [List.map_append]
        exact List.mem_append_left _ hcur
      obtain ⟨c1, c2, c3, c4, c5, c6⟩ := ih (queue ++ [n]) (p ++ [(n, some cur)]) hwf' hcur'
        (fun m hm => hsub m (List.mem_cons_of_mem _ hm))
      have hkeys : ∀ x ∈ pmKeys p, x ∈ pmKeys (p ++ [(n, some cur)]) := by
        intro x hx
        unfold pmKeys
        rw [List.map_append]
        exact List.mem_append_left _ hx
      have hnin : n ∈ pmKeys (p ++ [(n, some cur)]) := by
        unfold pmKeys
        rw [List.map_append]
        exact List.mem_append_right _ (by simp)
      refine ⟨c1, fun x hx => c2 x (hkeys x hx), ?_, ?_, ?_, ?_⟩
      · intro m hm
        rcases List.mem_cons.mp hm with h0 | h0
        · subst h0
          exact c2 m hnin
        · exact c3 m h0
      · intro x hx
        exact c4 x (List.mem_append_left _ hx)
      · intro x hx
        rcases c5 x hx with h0 | h0
        · rcases List.mem_append.mp h0 with h1 | h1
          · exact Or.inl h1
          · rw [List.mem_singleton.mp h1]
            exact Or.inr (c2 n hnin)
        · exact Or.inr h0
      · intro x hx
        rcases c6 x hx with h0 | h0
        · unfold pmKeys at h0
          rw [List.map_append] at h0
          rcases List.mem_append.mp h0 with h1 | h1
          · exact Or.inl h1
          · simp only [List.map_cons, List.map_nil, List.mem_singleton] at h1
            subst h1
            exact Or.inr (c4 x (List.mem_append_right _ (by simp)))
        · exact Or.inr h0

theorem bfsLoopF_spec (adj : Adj) (target src : String) :
    ∀ (fuel : Nat) (q : List String) (p pf : List (String × Option String)),
    bfsLoopF adj target fuel q p = some pf →
    WFParents adj src p → (∀ x ∈ q, x ∈ pmKeys p) →
    (∀ nk ∈ pmKeys p, nk ∉ q → ∀ m ∈ adjGet adj nk, m ∈ pmKeys p) →
    WFParents adj src pf ∧ (∀ x ∈ pmKeys p, x ∈ pmKeys pf) ∧
    ((alookup pf target).isNone →
      ∀ nk ∈ pmKeys pf, ∀ m ∈ adjGet adj nk, m ∈ pmKeys pf) := by
  intro fuel
  induction fuel with
  | zero => intro q p pf h; simp [bfsLoopF] at h
  | succ m ih =>
    intro q p pf h hwf hq hI
    cases q with
    | nil =>
      simp only [bfsLoopF, Option.some.injEq] at h
      subst h
      exact ⟨hwf, fun x hx => hx, fun _ nk hnk mm hmm =>
        hI nk hnk (List.not_mem_nil nk) mm hmm⟩
    | cons cur rest =>
      simp only [bfsLoopF] at h
      by_cases hc : cur = target
      · rw [if_pos hc] at h
        simp only [Option.some.injEq] at h
        subst h
        refine ⟨hwf, fun x hx => hx, ?_⟩
        intro hnone
        have : (alookup p target).isSome :=
          (alookup_isSome_iff p target).mpr (hc ▸ hq cur (List.mem_cons_self _ _))
        rw [Option.isNone_iff_eq_none] at hnone
        rw [hnone] at this
        simp at this
      · rw [if_neg hc] at h
        obtain ⟨c1, c2, c3, c4, c5, c6⟩ := bfsScan_spec adj src cur (adjGet adj cur) rest p
          hwf (hq cur (List.mem_cons_self _ _)) (fun m hm => hm)
        obtain ⟨d1, d2, d3⟩ := ih _ _ pf h c1
          (by
            intro x hx
            rcases c5 x hx with h0 | h0
            · exact c2 x (hq x (List.mem_cons_of_mem _ h0))
            · exact h0)
          (by
            intro nk hnk hnq mm hmm
            rcases c6 nk hnk with h0 | h0
            · by_cases hcc : nk = cur
              · subst hcc
                exact c3 mm hmm
              · have hnkq : nk ∉ cur :: rest := by
                  intro hmem
                  rcases List.mem_cons.mp hmem with h1 | h1
                  · exact hcc h1
                  · exact hnq (c4 nk h1)
                exact c2 mm (hI nk h0 hnkq mm hmm)
            · exact absurd h0 hnq)
        exact ⟨d1, fun x hx => d2 x (c2 x hx), d3⟩

theorem reconstructFrom_spec (adj : Adj) (src : String) :
    ∀ (p : List (String × Option String)), WFParents adj src p →
    ∀ (q : List (String × Option String)),
      (∀ x ∈ pmKeys p, alookup q x = alookup p x) →
    ∀ cur ∈ pmKeys p, ∀ fuel : Nat, p.length ≤ fuel →
    ∃ r, reconstructFrom q fuel (some cur) = cur :: r ∧
      (cur :: r).getLast? = some src ∧
      List.Chain' (fun a b => a ∈ adjGet adj b) (cur :: r) := by
  intro p hwf
  induction hwf with
  | base =>
    intro q hagr cur hcur fuel hfuel
    have hc : cur = src := by
      simpa [pmKeys] using hcur
    subst hc
    cases fuel with
    | zero => simp at hfuel
    | succ f =>
      refine ⟨[], ?_, rfl, List.chain'_singleton _⟩
      have hl : alookup q cur = some none := by
        rw [hagr cur (by simp [pmKeys])]
        simp [alookup]
      simp only [reconstructFrom, hl, Option.getD_some]
  | extend p0 n pn hwf0 hpn hn hadj ih =>
    intro q hagr cur hcur fuel hfuel
    have hagr0 : ∀ x ∈ pmKeys p0, alookup q x = alookup p0 x := by
      intro x hx
      rw [hagr x (by unfold pmKeys at hx ⊢; rw [List.map_append]; exact List.mem_append_left _ hx)]
      exact alookup_append_left p0 _ x hx
    have hlen0 : p0.length ≤ fuel := by
      rw [List.length_append] at hfuel
      simp at hfuel
      omega
    unfold pmKeys at hcur
    rw [List.map_append] at hcur
    rcases List.mem_append.mp hcur with hcur0 | hcur0
    · exact ih q hagr0 cur hcur0 fuel hlen0
    · simp only [List.map_cons, List.map_nil, List.mem_singleton] at hcur0
      subst hcur0
      cases fuel with
      | zero =>
        rw [List.length_append] at hfuel
        simp at hfuel
      | succ f =>
        have hlq : alookup q cur = some (some pn) := by
          rw [hagr cur (by unfold pmKeys; rw [List.map_append]; exact
            List.mem_append_right _ (by simp))]
          rw [alookup_append_right p0 _ cur hn]
          simp [alookup]
        have hlen0f : p0.length ≤ f := by
          rw [List.length_append] at hfuel
          simp only [List.length_cons, List.length_nil] at hfuel
          omega
        obtain ⟨r', hr', hlast', hchain'⟩ := ih q hagr0 pn hpn f hlen0f
        refine ⟨pn :: r', ?_, ?_, ?_⟩
        · simp only [reconstructFrom, hlq, Option.getD_some]
          rw [hr']
        · rw [List.getLast?_cons_cons]
          exact hlast'
        · rw [List.chain'_cons]
          exact ⟨hadj, hchain'⟩

/-- Claim C6: if `path(src, dst)` returns a non-empty sequence, it starts at
`src`, ends at `dst`, and every consecutive pair is connected by some edge of
the graph (any type, forward direction); if it returns the empty list, no
directed walk along outgoing edges leads from `src` to `dst`. -/
theorem C6_find_path_correct (g : GraphData) (s t : String) :
    (find_path g s t ≠ [] →
      (find_path g s t).head? = some s ∧
      (find_path g s t).getLast? = some t ∧
      List.Chain' (edgeStep g) (find_path g s t)) ∧
    (find_path g s t = [] → ¬ Relation.ReflTransGen (edgeStep g) s t) := by
  obtain ⟨pf, hpf⟩ := Option.isSome_iff_exists.mp
    (bfsLoopF_bfsFuel_isSome (build_adjacency g []) t s)
  obtain ⟨hwff, hkeep, hclosed⟩ := bfsLoopF_spec (build_adjacency g []) t s _ _ _ _ hpf
    WFParents.base
    (by
      intro x hx
      rw [List.mem_singleton.mp hx]
      simp [pmKeys])
    (by
      intro nk hnk hnq mm hmm
      simp only [pmKeys, List.map_cons, List.map_nil, List.mem_singleton] at hnk
      subst hnk
      exact absurd (List.mem_singleton.mpr rfl) hnq)
  have hfp : find_path g s t =
      if (alookup pf t).isNone then []
      else (reconstructFrom pf pf.length (some t)).reverse := by
    unfold find_path
    simp only [hpf]
  by_cases ht : (alookup pf t).isNone
  · rw [hfp, if_pos ht]
    constructor
    · intro h
      exact absurd rfl h
    · intro _ hreach
      have hclo := hclosed ht
      have hreachmem : ∀ u, Relation.ReflTransGen (edgeStep g) s u → u ∈ pmKeys pf := by
        intro u hu
        induction hu with
        | refl => exact hkeep s (by simp [pmKeys])
        | tail hab hbc ih0 =>
          exact hclo _ ih0 _ ((adjStep_build_adjacency g _ _).mpr hbc)
      have htk : t ∈ pmKeys pf := hreachmem t hreach
      have := (alookup_isSome_iff pf t).mpr htk
      rw [Option.isNone_iff_eq_none] at ht
      rw [ht] at this
      simp at this
  · rw [hfp, if_neg ht]
    have htk : t ∈ pmKeys pf := by
      apply (alookup_isSome_iff pf t).mp
      cases hh : alookup pf t with
      | none => exact absurd (by rw [hh]; rfl) ht
      | some w => simp
    obtain ⟨r, hr, hlast, hchain⟩ := reconstructFrom_spec (build_adjacency g []) s pf hwff
      pf (fun x _ => rfl) t htk pf.length (le_refl _)
    rw [hr]
    constructor
    · intro _
      refine ⟨?_, ?_, ?_⟩
      · rw [List.head?_reverse]
        exact hlast
      · rw [List.getLast?_reverse]
        rfl
      · rw [List.chain'_reverse]
        apply List.Chain'.imp ?_ hchain
        intro a b hab
        exact (adjStep_build_adjacency g b a).mp hab
    · intro hnil
      simp at hnil

/-- Witness for claim C6: on the chain graph the path from `a` to `c` is
non-empty with matching endpoints and edge-connected steps, and the empty
result for `c → a` comes with a proof that no walk exists. -/
theorem C6_find_path_correct_witness :
    ((find_path chainGraph "a" "c").head? = some "a" ∧
      (find_path chainGraph "a" "c").getLast? = some "c" ∧
      List.Chain' (edgeStep chainGraph) (find_path chainGraph "a" "c")) ∧
    ¬ Relation.ReflTransGen (edgeStep chainGraph) "c" "a" := by
  constructor
  · exact (C6_find_path_correct chainGraph "a" "c").1 (by decide)
  · exact (C6_find_path_correct chainGraph "c" "a").2 (by decide)


theorem mem_nodeIds_iff (g : Graph) (id : String) :
    id ∈ g.nodeIds ↔ ∃ n ∈ g.nodesList, n.id = id := by
  unfold Graph.nodeIds
  simp [List.mem_map]

theorem hasNode_iff_mem_nodeIds (g : Graph) (id : String) :
    g.hasNode id = true ↔ id ∈ g.nodeIds := by
  unfold Graph.hasNode Graph.nodeIds
  rw [List.any_eq_true]
  simp [List.mem_map]

theorem mem_nodeIds_add_node (g : Graph) (n : Node) (id : String) (h : id ∈ g.nodeIds) :
    id ∈ (g.add_node n).nodeIds := by
  unfold Graph.add_node
  split
  · exact h
  · unfold Graph.nodeIds at h ⊢
    rw [List.map_append]
    exact List.mem_append_left _ h

theorem self_mem_nodeIds_add_node (g : Graph) (n : Node) : n.id ∈ (g.add_node n).nodeIds := by
  unfold Graph.add_node
  split
  · rename_i h
    exact (hasNode_iff_mem_nodeIds g n.id).mp h
  · unfold Graph.nodeIds
    rw [List.map_append]
    exact List.mem_append_right _ (by simp)

theorem mem_nodesList_add_node (g : Graph) (n m : Node) (h : m ∈ g.nodesList) :
    m ∈ (g.add_node n).nodesList := by
  unfold Graph.add_node
  split
  · exact h
  · exact List.mem_append_left _ h

theorem nodeIds_add_edge (g : Graph) (s d t : String) :
    (g.add_edge s d t).nodeIds = g.nodeIds := by
  unfold Graph.nodeIds
  rw [Graph.nodesList_add_edge]

theorem edgesList_add_node (g : Graph) (n : Node) :
    (g.add_node n).edgesList = g.edgesList := by
  unfold Graph.add_node
  split <;> rfl

theorem edgesOK_add_node (g : Graph) (n : Node) (h : EdgesOK g) : EdgesOK (g.add_node n) := by
  intro e he
  rw [edgesList_add_node] at he
  obtain ⟨h1, h2⟩ := h e he
  exact ⟨mem_nodeIds_add_node g n _ h1, mem_nodeIds_add_node g n _ h2⟩

theorem edgesOK_add_edge (g : Graph) (s d t : String) (h : EdgesOK g)
    (hs : s ∈ g.nodeIds) (hd : d ∈ g.nodeIds) : EdgesOK (g.add_edge s d t) := by
  intro e he
  rw [nodeIds_add_edge]
  rcases Graph.mem_add_edge s d t he with h1 | h1
  · exact h e h1
  · subst h1
    exact ⟨hs, hd⟩

theorem edgesOK_empty : EdgesOK Graph.empty := by
  intro e he
  cases he

theorem mem_nodeIds_of_sub (g g' : Graph) (h : ∀ x ∈ g.nodesList, x ∈ g'.nodesList)
    (id : String) (hm : id ∈ g.nodeIds) : id ∈ g'.nodeIds := by
  rw [mem_nodeIds_iff] at hm ⊢
  obtain ⟨n, hn, he⟩ := hm
  exact ⟨n, h n hn, he⟩

theorem collectStmt_classDef (rel : String) (cs : List String) (st : P1State)
    (cname : String) (body : List PyStmt) :
    collectStmt rel cs st (.classDef cname body) =
      collectStmts rel (cname :: cs) (p1ClassState rel st cname) body := rfl

theorem collectStmt_funcDef_cons (rel cls : String) (cs : List String) (st : P1State)
    (fname : String) (body : List PyStmt) :
    collectStmt rel (cls :: cs) st (.funcDef fname body) =
      collectStmts rel (cls :: cs) (p1MethodState rel st cls fname) body := rfl

theorem collectStmt_funcDef_nil (rel : String) (st : P1State)
    (fname : String) (body : List PyStmt) :
    collectStmt rel [] st (.funcDef fname body) =
      collectStmts rel [] (p1FuncState rel st fname) body := rfl

theorem p1ClassState_facts (rel : String) (st : P1State) (cname : String) :
    (∀ x ∈ st.g.nodesList, x ∈ (p1ClassState rel st cname).g.nodesList) ∧
    (EdgesOK st.g → EdgesOK (p1ClassState rel st cname).g) := by
  refine ⟨?_, ?_⟩ <;> simp only [p1ClassState]
  · intro x hx
    rw [Graph.nodesList_add_edge]
    exact mem_nodesList_add_node _ _ _ (mem_nodesList_add_node _ _ _ hx)
  · intro hok
    apply edgesOK_add_edge
    · exact edgesOK_add_node _ _ (edgesOK_add_node _ _ hok)
    · exact mem_nodeIds_add_node _ _ _ (self_mem_nodeIds_add_node _ _)
    · exact self_mem_nodeIds_add_node _ _

theorem p1MethodState_facts (rel : String) (st : P1State) (cls fname : String) :
    (∀ x ∈ st.g.nodesList, x ∈ (p1MethodState rel st cls fname).g.nodesList) ∧
    (EdgesOK st.g → EdgesOK (p1MethodState rel st cls fname).g) ∧
    s!"func:{rel}:{qualOf (some cls) fname}" ∈ (p1MethodState rel st cls fname).g.nodeIds := by
  refine ⟨?_, ?_, ?_⟩ <;> simp only [p1MethodState]
  · intro x hx
    rw [Graph.nodesList_add_edge, Graph.nodesList_add_edge]
    exact mem_nodesList_add_node _ _ _
      (mem_nodesList_add_node _ _ _ (mem_nodesList_add_node _ _ _ hx))
  · intro hok
    apply edgesOK_add_edge
    · apply edgesOK_add_edge
      · exact edgesOK_add_node _ _ (edgesOK_add_node _ _ (edgesOK_add_node _ _ hok))
      · exact self_mem_nodeIds_add_node _ _
      · exact mem_nodeIds_add_node _ _ _ (self_mem_nodeIds_add_node _ _)
    · rw [nodeIds_add_edge]
      exact mem_nodeIds_add_node _ _ _
        (mem_nodeIds_add_node _ _ _ (self_mem_nodeIds_add_node _ _))
    · rw [nodeIds_add_edge]
      exact mem_nodeIds_add_node _ _ _ (self_mem_nodeIds_add_node _ _)
  · rw [nodeIds_add_edge, nodeIds_add_edge]
    exact mem_nodeIds_add_node _ _ _ (self_mem_nodeIds_add_node _ _)

theorem p1FuncState_facts (rel : String) (st : P1State) (fname : String) :
    (∀ x ∈ st.g.nodesList, x ∈ (p1FuncState rel st fname).g.nodesList) ∧
    (EdgesOK st.g → EdgesOK (p1FuncState rel st fname).g) ∧
    s!"func:{rel}:{qualOf none fname}" ∈ (p1FuncState rel st fname).g.nodeIds := by
  refine ⟨?_, ?_, ?_⟩ <;> simp only [p1FuncState]
  · intro x hx
    rw [Graph.nodesList_add_edge]
    exact mem_nodesList_add_node _ _ _ (mem_nodesList_add_node _ _ _ hx)
  · intro hok
    apply edgesOK_add_edge
    · exact edgesOK_add_node _ _ (edgesOK_add_node _ _ hok)
    · exact mem_nodeIds_add_node _ _ _ (self_mem_nodeIds_add_node _ _)
    · exact self_mem_nodeIds_add_node _ _
  · rw [nodeIds_add_edge]
    exact self_mem_nodeIds_add_node _ _

mutual
theorem p1_stmt_facts (rel : String) (cs : List String) (st : P1State) (s : PyStmt) :
    (∀ x ∈ st.g.nodesList, x ∈ (collectStmt rel cs st s).g.nodesList) ∧
    (EdgesOK st.g → EdgesOK (collectStmt rel cs st s).g) ∧
    (∀ id ∈ funcNodeIdsStmt rel cs.head? s, id ∈ (collectStmt rel cs st s).g.nodeIds) := by
  cases s with
  | classDef cname body =>
    rw [collectStmt_classDef]
    have hst := p1ClassState_facts rel st cname
    have step := p1_stmts_facts rel (cname :: cs) (p1ClassState rel st cname) body
    refine ⟨fun x hx => step.1 x (hst.1 x hx), fun hok => step.2.1 (hst.2 hok), ?_⟩
    intro id hid
    simp only [funcNodeIdsStmt] at hid
    exact step.2.2 id hid
  | funcDef fname body =>
    cases cs with
    | nil =>
      rw [collectStmt_funcDef_nil]
      have hst := p1FuncState_facts rel st fname
      have step := p1_stmts_facts rel [] (p1FuncState rel st fname) body
      refine ⟨fun x hx => step.1 x (hst.1 x hx), fun hok => step.2.1 (hst.2.1 hok), ?_⟩
      intro id hid
      simp only [funcNodeIdsStmt, List.mem_cons] at hid
      rcases hid with hid | hid
      · subst hid
        exact mem_nodeIds_of_sub _ _ step.1 _ hst.2.2
      · exact step.2.2 id hid
    | cons cls cs' =>
      rw [collectStmt_funcDef_cons]
      have hst := p1MethodState_facts rel st cls fname
      have step := p1_stmts_facts rel (cls :: cs') (p1MethodState rel st cls fname) body
      refine ⟨fun x hx => step.1 x (hst.1 x hx), fun hok => step.2.1 (hst.2.1 hok), ?_⟩
      intro id hid
      simp only [funcNodeIdsStmt, List.head?_cons, List.mem_cons] at hid
      rcases hid with hid | hid
      · subst hid
        exact mem_nodeIds_of_sub _ _ step.1 _ hst.2.2
      · exact step.2.2 id hid
  | block body =>
    have step := p1_stmts_facts rel cs st body
    exact ⟨step.1, step.2.1, step.2.2⟩
  | assign tgts v =>
    exact ⟨fun x hx => hx, fun h => h, fun id hid => absurd hid (List.not_mem_nil id)⟩
  | annAssign tgt v =>
    exact ⟨fun x hx => hx, fun h => h, fun id hid => absurd hid (List.not_mem_nil id)⟩
  | exprStmt e =>
    exact ⟨fun x hx => hx, fun h => h, fun id hid => absurd hid (List.not_mem_nil id)⟩
  | importStmt names =>
    exact ⟨fun x hx => hx, fun h => h, fun id hid => absurd hid (List.not_mem_nil id)⟩
  | importFrom m names =>
    exact ⟨fun x hx => hx, fun h => h, fun id hid => absurd hid (List.not_mem_nil id)⟩

theorem p1_stmts_facts (rel : String) (cs : List String) (st : P1State) (l : List PyStmt) :
    (∀ x ∈ st.g.nodesList, x ∈ (collectStmts rel cs st l).g.nodesList) ∧
    (EdgesOK st.g → EdgesOK (collectStmts rel cs st l).g) ∧
    (∀ id ∈ funcNodeIdsStmts rel cs.head? l, id ∈ (collectStmts rel cs st l).g.nodeIds) := by
  cases l with
  | nil => exact ⟨fun x hx => hx, fun h => h, fun id hid => absurd hid (List.not_mem_nil id)⟩
  | cons s rest =>
    have h1 := p1_stmt_facts rel cs st s
    have h2 := p1_stmts_facts rel cs (collectStmt rel cs st s) rest
    refine ⟨fun x hx => h2.1 x (h1.1 x hx), fun hok => h2.2.1 (h1.2.1 hok), ?_⟩
    intro id hid
    simp only [funcNodeIdsStmts, List.mem_append] at hid
    rcases hid with hid | hid
    · exact mem_nodeIds_of_sub _ _ h2.1 _ (h1.2.2 id hid)
    · exact h2.2.2 id hid
end

theorem nodeIds_eq_of_nodesList_eq (g g' : Graph) (h : g.nodesList = g'.nodesList) :
    g.nodeIds = g'.nodeIds := by
  unfold Graph.nodeIds
  rw [h]

theorem callerOK_of_nodesList (rel : String) (cf : Option String) (g g' : Graph)
    (h : g'.nodesList = g.nodesList) (hc : CallerOK rel cf g) : CallerOK rel cf g' := by
  intro q hq
  rw [show g'.nodeIds = g.nodeIds from nodeIds_eq_of_nodesList_eq g' g h]
  exact hc q hq

theorem materialize_call_nodesList (caller : String) (ts : List (String × String)) :
    ∀ g : Graph, (materialize_call g caller ts).nodesList = g.nodesList := by
  induction ts with
  | nil => intro g; rfl
  | cons t rest ih =>
    intro g
    have hstep : materialize_call g caller (t :: rest) =
        materialize_call (if g.hasNode s!"func:{t.1}:{t.2}" = true
          then g.add_edge caller s!"func:{t.1}:{t.2}" "call" else g) caller rest := rfl
    rw [hstep]
    by_cases hn : g.hasNode s!"func:{t.1}:{t.2}" = true
    · rw [if_pos hn, ih, Graph.nodesList_add_edge]
    · rw [if_neg hn, ih]

theorem materialize_call_edgesOK (caller : String) (ts : List (String × String)) :
    ∀ g : Graph, EdgesOK g → caller ∈ g.nodeIds → EdgesOK (materialize_call g caller ts) := by
  induction ts with
  | nil => intro g hok _; exact hok
  | cons t rest ih =>
    intro g hok hc
    have hstep : materialize_call g caller (t :: rest) =
        materialize_call (if g.hasNode s!"func:{t.1}:{t.2}" = true
          then g.add_edge caller s!"func:{t.1}:{t.2}" "call" else g) caller rest := rfl
    rw [hstep]
    by_cases hn : g.hasNode s!"func:{t.1}:{t.2}" = true
    · rw [if_pos hn]
      refine ih _ ?_ ?_
      · exact edgesOK_add_edge _ _ _ _ hok hc ((hasNode_iff_mem_nodeIds _ _).mp hn)
      · rw [nodeIds_add_edge]
        exact hc
    · rw [if_neg hn]
      exact ih g hok hc

theorem visitCallStep_nodesList (env : P2Env) (cf : Option String) (lt : LocalTypes)
    (g : Graph) (fn : PyExpr) : (visitCallStep env cf lt g fn).nodesList = g.nodesList := by
  cases cf with
  | none => rfl
  | some q => exact materialize_call_nodesList _ _ g

theorem visitCallStep_edgesOK (env : P2Env) (cf : Option String) (lt : LocalTypes)
    (g : Graph) (fn : PyExpr) (hok : EdgesOK g) (hc : CallerOK env.rel cf g) :
    EdgesOK (visitCallStep env cf lt g fn) := by
  cases cf with
  | none => exact hok
  | some q => exact materialize_call_edgesOK _ _ g hok (hc q rfl)

mutual
theorem p2Expr_facts (env : P2Env) (cf : Option String) (lt : LocalTypes) (g : Graph)
    (e : PyExpr) :
    (p2Expr env cf lt g e).nodesList = g.nodesList ∧
    (EdgesOK g → CallerOK env.rel cf g → EdgesOK (p2Expr env cf lt g e)) := by
  cases e with
  | name i => exact ⟨rfl, fun hok _ => hok⟩
  | other => exact ⟨rfl, fun hok _ => hok⟩
  | attr v a => exact p2Expr_facts env cf lt g v
  | call fn args =>
    cases cf with
    | none => exact ⟨rfl, fun hok _ => hok⟩
    | some q =>
      have h0n := visitCallStep_nodesList env (some q) lt g fn
      have h1 := p2Expr_facts env (some q) lt (visitCallStep env (some q) lt g fn) fn
      have h2 := p2ExprList_facts env (some q) lt
        (p2Expr env (some q) lt (visitCallStep env (some q) lt g fn) fn) args
      refine ⟨h2.1.trans (h1.1.trans h0n), fun hok hc => ?_⟩
      have hok1 := visitCallStep_edgesOK env (some q) lt g fn hok hc
      have hc1 := callerOK_of_nodesList env.rel (some q) g _ h0n hc
      exact h2.2 (h1.2 hok1 hc1) (callerOK_of_nodesList env.rel (some q) _ _ h1.1 hc1)

theorem p2ExprList_facts (env : P2Env) (cf : Option String) (lt : LocalTypes) (g : Graph)
    (l : List PyExpr) :
    (p2ExprList env cf lt g l).nodesList = g.nodesList ∧
    (EdgesOK g → CallerOK env.rel cf g → EdgesOK (p2ExprList env cf lt g l)) := by
  cases l with
  | nil => exact ⟨rfl, fun hok _ => hok⟩
  | cons e rest =>
    have h1 := p2Expr_facts env cf lt g e
    have h2 := p2ExprList_facts env cf lt (p2Expr env cf lt g e) rest
    exact ⟨h2.1.trans h1.1, fun hok hc =>
      h2.2 (h1.2 hok hc) (callerOK_of_nodesList env.rel cf g _ h1.1 hc)⟩
end

mutual
theorem p2Stmt_facts (env : P2Env) (cc cf : Option String) (lt : LocalTypes) (g : Graph)
    (s : PyStmt) :
    (p2Stmt env cc cf lt g s).2.nodesList = g.nodesList ∧
    (EdgesOK g → CallerOK env.rel cf g →
      (∀ id ∈ funcNodeIdsStmt env.rel cc s, id ∈ g.nodeIds) →
      EdgesOK (p2Stmt env cc cf lt g s).2) := by
  cases s with
  | classDef cname body =>
    have step := p2Stmts_facts env (some cname) cf lt g body
    exact ⟨step.1, fun hok hc hcov => step.2 hok hc (fun id hid => hcov id hid)⟩
  | funcDef fname body =>
    have step := p2Stmts_facts env cc (some (qualOf cc fname)) [] g body
    refine ⟨step.1, fun hok hc hcov => ?_⟩
    have hcf : CallerOK env.rel (some (qualOf cc fname)) g := by
      intro q hq
      injection hq with hq'
      subst hq'
      exact hcov _ (List.mem_cons_self _ _)
    exact step.2 hok hcf (fun id hid => hcov id (List.mem_cons_of_mem _ hid))
  | assign tgts value =>
    have h1 := p2ExprList_facts env cf
      (tgts.foldl (fun lt t => capture_ctor_assignment env lt t value) lt) g tgts
    have h2 := p2Expr_facts env cf
      (tgts.foldl (fun lt t => capture_ctor_assignment env lt t value) lt)
      (p2ExprList env cf
        (tgts.foldl (fun lt t => capture_ctor_assignment env lt t value) lt) g tgts) value
    exact ⟨h2.1.trans h1.1, fun hok hc _ =>
      h2.2 (h1.2 hok hc) (callerOK_of_nodesList env.rel cf g _ h1.1 hc)⟩
  | annAssign tgt v? =>
    cases v? with
    | some v =>
      have h1 := p2Expr_facts env cf (capture_ctor_assignment env lt tgt v) g tgt
      have h2 := p2Expr_facts env cf (capture_ctor_assignment env lt tgt v)
        (p2Expr env cf (capture_ctor_assignment env lt tgt v) g tgt) v
      exact ⟨h2.1.trans h1.1, fun hok hc _ =>
        h2.2 (h1.2 hok hc) (callerOK_of_nodesList env.rel cf g _ h1.1 hc)⟩
    | none =>
      have h1 := p2Expr_facts env cf lt g tgt
      exact ⟨h1.1, fun hok hc _ => h1.2 hok hc⟩
  | exprStmt e =>
    have h1 := p2Expr_facts env cf lt g e
    exact ⟨h1.1, fun hok hc _ => h1.2 hok hc⟩
  | block body =>
    have step := p2Stmts_facts env cc cf lt g body
    exact ⟨step.1, fun hok hc hcov => step.2 hok hc (fun id hid => hcov id hid)⟩
  | importStmt names => exact ⟨rfl, fun hok _ _ => hok⟩
  | importFrom m names => exact ⟨rfl, fun hok _ _ => hok⟩

theorem p2Stmts_facts (env : P2Env) (cc cf : Option String) (lt : LocalTypes) (g : Graph)
    (l : List PyStmt) :
    (p2Stmts env cc cf lt g l).2.nodesList = g.nodesList ∧
    (EdgesOK g → CallerOK env.rel cf g →
      (∀ id ∈ funcNodeIdsStmts env.rel cc l, id ∈ g.nodeIds) →
      EdgesOK (p2Stmts env cc cf lt g l).2) := by
  cases l with
  | nil => exact ⟨rfl, fun hok _ _ => hok⟩
  | cons s rest =>
    have h1 := p2Stmt_facts env cc cf lt g s
    have h2 := p2Stmts_facts env cc cf (p2Stmt env cc cf lt g s).1
      (p2Stmt env cc cf lt g s).2 rest
    refine ⟨h2.1.trans h1.1, fun hok hc hcov => ?_⟩
    have hok1 := h1.2 hok hc (fun id hid => hcov id
      (by simp only [funcNodeIdsStmts, List.mem_append]; exact Or.inl hid))
    have hc1 := callerOK_of_nodesList env.rel cf g _ h1.1 hc
    refine h2.2 hok1 hc1 (fun id hid => ?_)
    rw [show (p2Stmt env cc cf lt g s).2.nodeIds = g.nodeIds from
      nodeIds_eq_of_nodesList_eq _ _ h1.1]
    exact hcov id (by simp only [funcNodeIdsStmts, List.mem_append]; exact Or.inr hid)
end

theorem p1_files_fold_facts (files : List FileInfo) :
    ∀ st : P1State,
      (∀ x ∈ st.g.nodesList,
        x ∈ (files.foldl (fun st fi => collectStmts fi.rel [] st fi.tree) st).g.nodesList) ∧
      (EdgesOK st.g →
        EdgesOK (files.foldl (fun st fi => collectStmts fi.rel [] st fi.tree) st).g) ∧
      (∀ fi ∈ files, ∀ id ∈ funcNodeIdsStmts fi.rel none fi.tree,
        id ∈ (files.foldl (fun st fi => collectStmts fi.rel [] st fi.tree) st).g.nodeIds) := by
  induction files with
  | nil =>
    intro st
    exact ⟨fun x hx => hx, fun h => h, fun fi hfi => absurd hfi (List.not_mem_nil fi)⟩
  | cons f rest ih =>
    intro st
    have h1 := p1_stmts_facts f.rel [] st f.tree
    have h2 := ih (collectStmts f.rel [] st f.tree)
    refine ⟨fun x hx => h2.1 x (h1.1 x hx), fun hok => h2.2.1 (h1.2.1 hok), ?_⟩
    intro fi hfi id hid
    rcases List.mem_cons.mp hfi with hfi | hfi
    · subst hfi
      exact mem_nodeIds_of_sub _ _ h2.1 _ (h1.2.2 id hid)
    · exact h2.2.2 fi hfi id hid

theorem p2_files_fold_facts (cd : List (String × List String)) (relpathFn : String → String)
    (jediInfer : String → PyExpr → List JediDef) (uj ie : Bool) (files : List FileInfo) :
    ∀ g : Graph,
      ((files.foldl (p2File cd relpathFn jediInfer uj ie) g).nodesList = g.nodesList) ∧
      (EdgesOK g →
        (∀ fi ∈ files, ∀ id ∈ funcNodeIdsStmts fi.rel none fi.tree, id ∈ g.nodeIds) →
        EdgesOK (files.foldl (p2File cd relpathFn jediInfer uj ie) g)) := by
  induction files with
  | nil => intro g; exact ⟨rfl, fun hok _ => hok⟩
  | cons f rest ih =>
    intro g
    have h1 := p2Stmts_facts (p2EnvOf cd relpathFn jediInfer uj ie f) none none [] g f.tree
    have h2 := ih (p2File cd relpathFn jediInfer uj ie g f)
    refine ⟨h2.1.trans h1.1, fun hok hcov => ?_⟩
    have hok1 : EdgesOK (p2File cd relpathFn jediInfer uj ie g f) :=
      h1.2 hok (fun q hq => nomatch hq)
        (fun id hid => hcov f (List.mem_cons_self f rest) id hid)
    refine h2.2 hok1 (fun fi hfi id hid => ?_)
    rw [show (p2File cd relpathFn jediInfer uj ie g f).nodeIds = g.nodeIds from
      nodeIds_eq_of_nodesList_eq _ _ h1.1]
    exact hcov fi (List.mem_cons_of_mem f hfi) id hid

theorem build_function_graph_edgesOK (files : List FileInfo) (relpathFn : String → String)
    (jediInfer : String → PyExpr → List JediDef) (ie : Bool) (rc : String) :
    EdgesOK (build_function_graph files relpathFn jediInfer ie rc) := by
  have hp1 := p1_files_fold_facts files ⟨Graph.empty, []⟩
  have hp2 := p2_files_fold_facts (p1Collect files).class_defs relpathFn jediInfer
    (decide (rc = "jedi")) ie files (p1Collect files).g
  exact hp2.2 (hp1.2.1 edgesOK_empty) hp1.2.2

theorem mem_aupsert {κ α : Type} [DecidableEq κ] (l : List (κ × α)) (k : κ) (v : α)
    (kv : κ × α) (hm : kv ∈ aupsert l k v) : kv ∈ l ∨ kv = (k, v) := by
  induction l with
  | nil =>
    simp only [aupsert] at hm
    exact Or.inr (List.mem_singleton.mp hm)
  | cons p rest ih =>
    by_cases hk : p.1 = k
    · rw [show aupsert (p :: rest) k v = (k, v) :: rest from by
        rw [show (p :: rest) = ((p.1, p.2) :: rest) from by rw [Prod.mk.eta]]
        simp only [aupsert, if_pos hk]] at hm
      rcases List.mem_cons.mp hm with hm | hm
      · exact Or.inr hm
      · exact Or.inl (List.mem_cons_of_mem p hm)
    · rw [show aupsert (p :: rest) k v = p :: aupsert rest k v from by
        rw [show (p :: rest) = ((p.1, p.2) :: rest) from by rw [Prod.mk.eta]]
        simp only [aupsert, if_neg hk]] at hm
      rcases List.mem_cons.mp hm with hm | hm
      · exact Or.inl (hm ▸ List.mem_cons_self p rest)
      · rcases ih hm with h | h
        · exact Or.inl (List.mem_cons_of_mem p h)
        · exact Or.inr h

theorem fileIndexStep_fold_facts (files : List FileInfo) :
    ∀ mg : List (String × String) × Graph,
      (∀ kv ∈ (files.foldl fileIndexStep mg).1, kv ∈ mg.1 ∨ ∃ fi ∈ files, kv.2 = fi.rel) ∧
      ((files.foldl fileIndexStep mg).2.edgesList = mg.2.edgesList) ∧
      (∀ x ∈ mg.2.nodesList, x ∈ (files.foldl fileIndexStep mg).2.nodesList) ∧
      (∀ fi ∈ files, s!"file:{fi.rel}" ∈ (files.foldl fileIndexStep mg).2.nodeIds) := by
  induction files with
  | nil =>
    intro mg
    exact ⟨fun kv hkv => Or.inl hkv, rfl, fun x hx => hx,
      fun fi hfi => absurd hfi (List.not_mem_nil fi)⟩
  | cons f rest ih =>
    intro mg
    have h2 := ih (fileIndexStep mg f)
    refine ⟨?_, h2.2.1.trans (edgesList_add_node _ _), ?_, ?_⟩
    · intro kv hkv
      rcases h2.1 kv hkv with hkv1 | hkv1
      · rcases mem_aupsert mg.1 (replaceChar (f.rel.dropRight 3) '/' '.') f.rel kv hkv1
          with h | h
        · exact Or.inl h
        · exact Or.inr ⟨f, List.mem_cons_self f rest, by rw [h]⟩
      · obtain ⟨fi, hfi, he⟩ := hkv1
        exact Or.inr ⟨fi, List.mem_cons_of_mem f hfi, he⟩
    · intro x hx
      exact h2.2.2.1 x (mem_nodesList_add_node _ _ _ hx)
    · intro fi hfi
      rcases List.mem_cons.mp hfi with hfi | hfi
      · subst hfi
        exact mem_nodeIds_of_sub _ _ h2.2.2.1 _ (self_mem_nodeIds_add_node _ _)
      · exact h2.2.2.2 fi hfi

theorem importEdgeName_facts (m2f : List (String × String)) (fid : String)
    (p : String × Option String) (g : Graph) :
    ((importEdgeName m2f fid g p).nodesList = g.nodesList) ∧
    (EdgesOK g → fid ∈ g.nodeIds → (∀ kv ∈ m2f, s!"file:{kv.2}" ∈ g.nodeIds) →
      EdgesOK (importEdgeName m2f fid g p)) := by
  cases halk : alookup m2f p.1 with
  | none =>
    simp only [importEdgeName, halk]
    exact ⟨trivial, fun hok _ _ => hok⟩
  | some tr =>
    simp only [importEdgeName, halk]
    refine ⟨Graph.nodesList_add_edge _ _ _ _, fun hok hf hm => ?_⟩
    exact edgesOK_add_edge _ _ _ _ hok hf (hm (p.1, tr) (alookup_mem halk))

theorem importNamesFold_facts (m2f : List (String × String)) (fid : String)
    (names : List (String × Option String)) :
    ∀ g : Graph,
      ((names.foldl (importEdgeName m2f fid) g).nodesList = g.nodesList) ∧
      (EdgesOK g → fid ∈ g.nodeIds → (∀ kv ∈ m2f, s!"file:{kv.2}" ∈ g.nodeIds) →
        EdgesOK (names.foldl (importEdgeName m2f fid) g)) := by
  induction names with
  | nil => intro g; exact ⟨rfl, fun hok _ _ => hok⟩
  | cons p rest ih =>
    intro g
    have h1 := importEdgeName_facts m2f fid p g
    have h2 := ih (importEdgeName m2f fid g p)
    have hids : (importEdgeName m2f fid g p).nodeIds = g.nodeIds :=
      nodeIds_eq_of_nodesList_eq _ _ h1.1
    refine ⟨h2.1.trans h1.1, fun hok hf hm => ?_⟩
    refine h2.2 (h1.2 hok hf hm) ?_ ?_
    · rw [hids]
      exact hf
    · intro kv hkv
      rw [hids]
      exact hm kv hkv

theorem importEdgesStmt_facts (m2f : List (String × String)) (fid : String)
    (s : PyStmt) (g : Graph) :
    ((importEdgesStmt m2f fid g s).nodesList = g.nodesList) ∧
    (EdgesOK g → fid ∈ g.nodeIds → (∀ kv ∈ m2f, s!"file:{kv.2}" ∈ g.nodeIds) →
      EdgesOK (importEdgesStmt m2f fid g s)) := by
  cases s with
  | importStmt names => exact importNamesFold_facts m2f fid names g
  | importFrom mo names =>
    cases mo with
    | none => exact ⟨rfl, fun hok _ _ => hok⟩
    | some md =>
      by_cases hmod : md = ""
      · simp only [importEdgesStmt, if_pos hmod]
        exact ⟨trivial, fun hok _ _ => hok⟩
      · cases halk : alookup m2f md with
        | none =>
          simp only [importEdgesStmt, if_neg hmod, halk]
          exact ⟨trivial, fun hok _ _ => hok⟩
        | some tr =>
          simp only [importEdgesStmt, if_neg hmod, halk]
          refine ⟨Graph.nodesList_add_edge _ _ _ _, fun hok hf hm => ?_⟩
          exact edgesOK_add_edge _ _ _ _ hok hf (hm (md, tr) (alookup_mem halk))
  | classDef cname body => exact ⟨rfl, fun hok _ _ => hok⟩
  | funcDef fname body => exact ⟨rfl, fun hok _ _ => hok⟩
  | assign tgts v => exact ⟨rfl, fun hok _ _ => hok⟩
  | annAssign tgt v => exact ⟨rfl, fun hok _ _ => hok⟩
  | exprStmt e => exact ⟨rfl, fun hok _ _ => hok⟩
  | block body => exact ⟨rfl, fun hok _ _ => hok⟩

theorem importStmtsFold_facts (m2f : List (String × String)) (fid : String)
    (l : List PyStmt) :
    ∀ g : Graph,
      ((l.foldl (importEdgesStmt m2f fid) g).nodesList = g.nodesList) ∧
      (EdgesOK g → fid ∈ g.nodeIds → (∀ kv ∈ m2f, s!"file:{kv.2}" ∈ g.nodeIds) →
        EdgesOK (l.foldl (importEdgesStmt m2f fid) g)) := by
  induction l with
  | nil => intro g; exact ⟨rfl, fun hok _ _ => hok⟩
  | cons s rest ih =>
    intro g
    have h1 := importEdgesStmt_facts m2f fid s g
    have h2 := ih (importEdgesStmt m2f fid g s)
    have hids : (importEdgesStmt m2f fid g s).nodeIds = g.nodeIds :=
      nodeIds_eq_of_nodesList_eq _ _ h1.1
    refine ⟨h2.1.trans h1.1, fun hok hf hm => ?_⟩
    refine h2.2 (h1.2 hok hf hm) ?_ ?_
    · rw [hids]
      exact hf
    · intro kv hkv
      rw [hids]
      exact hm kv hkv

theorem importFilesFold_facts (m2f : List (String × String)) (files : List FileInfo) :
    ∀ g : Graph,
      ((files.foldl (importEdgesFile m2f) g).nodesList = g.nodesList) ∧
      (EdgesOK g → (∀ fi ∈ files, s!"file:{fi.rel}" ∈ g.nodeIds) →
        (∀ kv ∈ m2f, s!"file:{kv.2}" ∈ g.nodeIds) →
        EdgesOK (files.foldl (importEdgesFile m2f) g)) := by
  induction files with
  | nil => intro g; exact ⟨rfl, fun hok _ _ => hok⟩
  | cons f rest ih =>
    intro g
    have h1 := importStmtsFold_facts m2f s!"file:{f.rel}" (walkStmts f.tree) g
    have h2 := ih (importEdgesFile m2f g f)
    have hids : (importEdgesFile m2f g f).nodeIds = g.nodeIds :=
      nodeIds_eq_of_nodesList_eq _ _ h1.1
    refine ⟨h2.1.trans h1.1, fun hok hfiles hm => ?_⟩
    have hok1 : EdgesOK (importEdgesFile m2f g f) :=
      h1.2 hok (hfiles f (List.mem_cons_self f rest)) hm
    refine h2.2 hok1 ?_ ?_
    · intro fi hfi
      rw [hids]
      exact hfiles fi (List.mem_cons_of_mem f hfi)
    · intro kv hkv
      rw [hids]
      exact hm kv hkv

theorem build_file_graph_edgesOK (files : List FileInfo) :
    EdgesOK (build_file_graph files) := by
  have h1 := fileIndexStep_fold_facts files ([], Graph.empty)
  have h2 := importFilesFold_facts (files.foldl fileIndexStep ([], Graph.empty)).1 files
    (files.foldl fileIndexStep ([], Graph.empty)).2
  refine h2.2 ?_ h1.2.2.2 ?_
  · intro e he
    rw [h1.2.1] at he
    exact absurd he (List.not_mem_nil e)
  · intro kv hkv
    rcases h1.1 kv hkv with h | h
    · exact absurd h (List.not_mem_nil kv)
    · obtain ⟨fi, hfi, he⟩ := h
      rw [he]
      exact h1.2.2.2 fi hfi

theorem serialize_edges_ok (g : Graph) (hok : EdgesOK g) :
    ∀ e ∈ (serialize_graph g).edges,
      (∃ n ∈ (serialize_graph g).nodes, n.id = e.source) ∧
      (∃ n ∈ (serialize_graph g).nodes, n.id = e.target) := by
  intro e he
  rw [show (serialize_graph g).edges =
    g.edgesList.map (fun e => (⟨e.1, e.2.1, e.2.2⟩ : EdgeData)) from rfl,
    List.mem_map] at he
  obtain ⟨raw, hraw, he2⟩ := he
  obtain ⟨h1, h2⟩ := hok raw hraw
  subst he2
  rw [mem_nodeIds_iff] at h1 h2
  obtain ⟨n1, hn1, hne1⟩ := h1
  obtain ⟨n2, hn2, hne2⟩ := h2
  exact ⟨⟨n1, hn1, hne1⟩, ⟨n2, hn2, hne2⟩⟩

/-- Claim C4: at both granularities every edge of the delivered graph joins
two existing nodes — each edge's source id and target id are ids of nodes of
the same graph (in particular, every `call` edge's caller id is a node id). -/
theorem C4_edge_referential_integrity (files : List FileInfo) (relpathFn : String → String)
    (jediInfer : String → PyExpr → List JediDef) (granularity : String)
    (include_external : Bool) (resolve_calls : String) :
    ∀ e ∈ (build_project_graph files relpathFn jediInfer granularity include_external
        resolve_calls).edges,
      (∃ n ∈ (build_project_graph files relpathFn jediInfer granularity include_external
          resolve_calls).nodes, n.id = e.source) ∧
      (∃ n ∈ (build_project_graph files relpathFn jediInfer granularity include_external
          resolve_calls).nodes, n.id = e.target) := by
  by_cases hgr : granularity = "file"
  · have heq : build_project_graph files relpathFn jediInfer granularity include_external
        resolve_calls = serialize_graph (build_file_graph files) := by
      unfold build_project_graph
      rw [if_pos hgr]
    rw [heq]
    exact serialize_edges_ok _ (build_file_graph_edgesOK files)
  · have heq : build_project_graph files relpathFn jediInfer granularity include_external
        resolve_calls = serialize_graph
          (build_function_graph files relpathFn jediInfer include_external resolve_calls) := by
      unfold build_project_graph
      rw [if_neg hgr]
    rw [heq]
    exact serialize_edges_ok _
      (build_function_graph_edgesOK files relpathFn jediInfer include_external resolve_calls)

theorem C4_edge_referential_integrity_witness :
    (⟨"file:a.py", "func:a.py:f", "contains"⟩ : EdgeData) ∈
      (build_project_graph extFiles (fun s => s) extInfer "function" true "jedi").edges ∧
    (∃ n ∈ (build_project_graph extFiles (fun s => s) extInfer "function" true "jedi").nodes,
      n.id = "file:a.py") ∧
    (∃ n ∈ (build_project_graph extFiles (fun s => s) extInfer "function" true "jedi").nodes,
      n.id = "func:a.py:f") := by
  refine ⟨by decide, ?_, ?_⟩
  · exact (C4_edge_referential_integrity extFiles (fun s => s) extInfer "function" true "jedi"
      ⟨"file:a.py", "func:a.py:f", "contains"⟩ (by decide)).1
  · exact (C4_edge_referential_integrity extFiles (fun s => s) extInfer "function" true "jedi"
      ⟨"file:a.py", "func:a.py:f", "contains"⟩ (by decide)).2
